import Mathlib

/-!
Verification of the ledger/consensus core and auxiliary services of the
stegos-derived repository.  The repository ships the blockchain test harness
(`blockchain/src/test.rs`), the WebSocket API codec (`api/src/lib.rs`), the
API server glue (`api/src/server/api.rs`) and the console service
(`console.rs`).  The blockchain core itself (output, transaction, election,
multisignature and ledger modules) is referenced by the test harness but its
sources are not part of the repository, so those parts are modelled from the
specification; the console service and the API codec composition are embedded
directly from the sources.
-/

set_option maxRecDepth 10000

deriving instance DecidableEq for Except

/-- Error kinds of the ledger core, as enumerated by the specification (§7). -/
inductive ErrKind where
  | UnknownInput
  | UnbalancedTransaction
  | InvalidSignature
  | InvalidOutput
  | WrongLeader
  | StaleOrInvalidViewChange
  | EpochOrOffsetMismatch
  | InvalidAggregateSignature
  | InsufficientQuorum
  | ChainLinkageMismatch
  | DecryptionError
  deriving DecidableEq, Repr

/-- Modelled from the spec: a Pedersen-style additively-homomorphic commitment
binding an amount and a blinding scalar ("gamma").  The underlying curve
arithmetic is an external trusted primitive, so the embedding represents a
commitment transparently by its amount and blinding coordinates; addition and
negation are componentwise, exactly the homomorphic structure the spec
assumes (§3 "Commitment"). -/
@[ext]
structure Commitment where
  amount : Int
  gamma : Int
  deriving DecidableEq, Repr

instance : Add Commitment where
  add a b := ⟨a.amount + b.amount, a.gamma + b.gamma⟩

instance : Neg Commitment where
  neg a := ⟨-a.amount, -a.gamma⟩

instance : Sub Commitment where
  sub a b := ⟨a.amount - b.amount, a.gamma - b.gamma⟩

/-- Commitment to a public (unblinded) amount, e.g. a fee term. -/
def commitAmount (a : Int) : Commitment := ⟨a, 0⟩

/-- Zero commitment adjusted by a blinding scalar. -/
def commitBlinding (g : Int) : Commitment := ⟨0, g⟩

/-- Modelled from the spec: the Output union (§3).  A ConfidentialPayment
carries its owner key and a commitment to the amount (the encrypted payload is
represented by the amount/gamma pair the owner could decrypt); a PublicPayment
and a Stake carry plaintext amounts.  Keys are opaque scalars, embedded as
naturals. -/
inductive Output where
  | payment (pk : Nat) (amount : Int) (gamma : Int)
  | publicPayment (pk : Nat) (amount : Int)
  | stake (walletPk : Nat) (networkPk : Nat) (amount : Int)
  deriving DecidableEq, Repr

/-- Commitment exposed by an output: confidential outputs expose their
commitment, public outputs the commitment of their plaintext amount. -/
def Output.commitment : Output → Commitment
  | .payment _ a g => ⟨a, g⟩
  | .publicPayment _ a => ⟨a, 0⟩
  | .stake _ _ a => ⟨a, 0⟩

/-- Owner public key of an output (wallet key for stakes). -/
def Output.owner : Output → Nat
  | .payment pk _ _ => pk
  | .publicPayment pk _ => pk
  | .stake wpk _ _ => wpk

/-- Perturbation of the amount declared by an output, leaving every other
field (owner keys, blinding) unchanged.  Used to state the balance-law
robustness property of §8. -/
def Output.perturb (d : Int) : Output → Output
  | .payment pk a g => .payment pk (a + d) g
  | .publicPayment pk a => .publicPayment pk (a + d)
  | .stake wpk npk a => .stake wpk npk (a + d)

/-- Sum of the commitments of a list of outputs. -/
def sumCommitments (os : List Output) : Commitment :=
  os.foldr (fun o acc => o.commitment + acc) ⟨0, 0⟩

/-- Injective-enough encoding of an integer into a natural, used by the hash
model. -/
def encodeInt (i : Int) : Nat := Nat.pair i.toNat (-i).toNat

/-- Encoding of a list of naturals into one natural, used by the hash model. -/
def encodeList (l : List Nat) : Nat :=
  l.foldr (fun a r => Nat.pair a r + 1) 0

/-- Modelled from the spec: content hash of an output (§3: outputs are
identified by their content hash).  The cryptographic hash is an external
primitive; the embedding uses a tagged pairing encoding of the content. -/
def hashOutput : Output → Nat
  | .payment pk a g => Nat.pair 0 (Nat.pair pk (Nat.pair (encodeInt a) (encodeInt g)))
  | .publicPayment pk a => Nat.pair 1 (Nat.pair pk (encodeInt a))
  | .stake wpk npk a => Nat.pair 2 (Nat.pair wpk (Nat.pair npk (encodeInt a)))

/-- Modelled from the spec: Schnorr-style signature primitive of the trusted
crypto library.  A keypair is identified by its scalar; signing binds the
public key to the hashed message, and verification checks that binding.  Only
the sign/verify contract matters to the core, per §6. -/
def signHash (sk : Nat) (h : Nat) : Nat := sk * (h + 1)

/-- Signature verification against a public key. -/
def sigValid (h : Nat) (pk : Nat) (s : Nat) : Bool := s == pk * (h + 1)

/-- Modelled from the spec: a Payment transaction (§3, §4.2): ordered input
hashes, ordered outputs, the declared blinding adjustment, an explicit fee and
a signature over the transaction hash. -/
structure PaymentTransaction where
  txins : List Nat
  txouts : List Output
  gamma : Int
  fee : Int
  sig : Nat
  deriving DecidableEq, Repr

/-- Transaction hash of a payment: binds inputs, outputs and fee (§4.2). -/
def paymentTxHash (txins : List Nat) (txouts : List Output) (fee : Int) : Nat :=
  Nat.pair (encodeList txins)
    (Nat.pair (encodeList (txouts.map hashOutput)) (encodeInt fee))

/-- Hash of a payment transaction as stored. -/
def PaymentTransaction.hash (tx : PaymentTransaction) : Nat :=
  paymentTxHash tx.txins tx.txouts tx.fee

/-- Modelled from the spec: `Payment::new(signing_key, inputs, outputs,
total_blinding, fee)` (§4.2): computes the aggregate input commitment minus
aggregate output commitment minus fee-as-commitment; the result must equal
the supplied `total_blinding` adjustment exactly, else the constructor fails
with `UnbalancedTransaction`.  On success it signs the transaction hash with
the signing key. -/
def PaymentTransaction.new (skey : Nat) (inputs : List Output)
    (outputs : List Output) (totalBlinding : Int) (fee : Int) :
    Except ErrKind PaymentTransaction :=
  if sumCommitments inputs - sumCommitments outputs - commitAmount fee ≠
      commitBlinding totalBlinding then
    .error .UnbalancedTransaction
  else
    let txins := inputs.map hashOutput
    .ok { txins := txins, txouts := outputs, gamma := totalBlinding, fee := fee,
          sig := signHash skey (paymentTxHash txins outputs fee) }

/-- Modelled from the spec: `Payment::validate(inputs)` (§4.2): checks that
the resolved inputs are the ones referenced by hash (else `UnknownInput`),
recomputes the balance law against the actual input outputs (else
`UnbalancedTransaction`), and verifies the signature against every input
owner (else `InvalidSignature`). -/
def PaymentTransaction.validate (tx : PaymentTransaction)
    (inputs : List Output) : Except ErrKind Unit :=
  if tx.txins ≠ inputs.map hashOutput then
    .error .UnknownInput
  else if sumCommitments inputs - sumCommitments tx.txouts - commitAmount tx.fee ≠
      commitBlinding tx.gamma then
    .error .UnbalancedTransaction
  else if ¬ (inputs.all (fun o => sigValid tx.hash o.owner tx.sig)) then
    .error .InvalidSignature
  else
    .ok ()

/-- Modelled from the spec: a Coinbase transaction (§3, §4.2): no inputs,
declared block reward and fee amounts, a blinding adjustment, and outputs. -/
structure CoinbaseTransaction where
  blockReward : Int
  blockFee : Int
  gamma : Int
  txouts : List Output
  deriving DecidableEq, Repr

/-- Modelled from the spec: `Coinbase::validate` (§4.2): the balance check is
that reward plus fee, as a public commitment adjusted by the declared gamma,
equals the sum of the declared output commitments.  A coinbase carries no
signature, so no signature is checked. -/
def CoinbaseTransaction.validate (tx : CoinbaseTransaction) :
    Except ErrKind Unit :=
  if sumCommitments tx.txouts =
      commitAmount (tx.blockReward + tx.blockFee) - commitBlinding tx.gamma then
    .ok ()
  else
    .error .UnbalancedTransaction

/-- Perturbation of the amount of one output inside an output list, leaving
every other output unchanged. -/
def perturbAt (d : Int) : List Output → Nat → List Output
  | [], _ => []
  | o :: rest, 0 => o.perturb d :: rest
  | o :: rest, j + 1 => o :: perturbAt d rest j

/-- Perturbation of the amount of the j-th output of a payment transaction. -/
def PaymentTransaction.perturbOut (tx : PaymentTransaction) (j : Nat)
    (d : Int) : PaymentTransaction :=
  { tx with txouts := perturbAt d tx.txouts j }

/-- Modelled from the spec: `mix(previous_random, view_change)` (§4.3), the
one-way combination deriving the election seed for a view-change attempt from
the chain's running random value.  The one-way hash is an external primitive;
the embedding uses an injective pairing. -/
def mix (previousRandom : Nat) (viewChange : Nat) : Nat :=
  Nat.pair previousRandom viewChange + 1

/-- Modelled from the spec: the verifiable-random-function value produced by
the leader for a seed (§3, §4.3).  The VRF output is determined by the
evaluating keypair and the seed, and publicly verifiable against the public
key, which is all the core relies on; the embedding therefore computes it
from the public key and the seed. -/
def vrfValue (pk : Nat) (seed : Nat) : Nat := Nat.pair pk seed

/-- Lexicographic comparison used to sort the validator list canonically: by
public key, with the stake as a tie-break so that the order is antisymmetric
(a registry never holds the same key twice, so the tie-break never fires on
real registries). -/
def validatorLe (a b : Nat × Nat) : Bool :=
  a.1 < b.1 || (a.1 == b.1 && a.2 ≤ b.2)

/-- Insertion of a validator into an already sorted validator list. -/
def insertSorted (x : Nat × Nat) : List (Nat × Nat) → List (Nat × Nat)
  | [] => [x]
  | y :: ys => if validatorLe x y then x :: y :: ys else y :: insertSorted x ys

/-- Canonically sorted validator list (spec §4.3: sorted by public key, for
determinism). -/
def sortValidators (vs : List (Nat × Nat)) : List (Nat × Nat) :=
  vs.foldr insertSorted []

/-- Total stake of a validator list (§4.4). -/
def totalStake (vs : List (Nat × Nat)) : Nat :=
  (vs.map (fun v => v.2)).sum

/-- Cumulative-weight draw over a validator list: walks the list subtracting
each stake from the draw until the draw falls inside a validator's stake
interval. -/
def pickValidator (r : Nat) : List (Nat × Nat) → Nat
  | [] => 0
  | (pk, s) :: rest => if r < s then pk else pickValidator (r - s) rest

/-- Modelled from the spec: `select_leader(seed, validators)` (§4.3):
interprets the verifiable-random output as a cumulative-weight draw over the
canonically sorted validator list, each validator weighted by its stake. -/
def selectLeader (seed : Nat) (vs : List (Nat × Nat)) : Nat :=
  let sorted := sortValidators vs
  let total := totalStake sorted
  if total = 0 then 0 else pickValidator (seed % total) sorted

/-- Modelled from the spec: a partial signature over a block hash
(`sign_partial`, §4.4), using the aggregatable signature primitive: partial
signatures add, and an aggregate verifies against the sum of the
participants' public keys. -/
def signPartial (blockHash : Nat) (sk : Nat) : Nat := sk * (blockHash + 1)

/-- Lookup of a participant's partial signature in the collected signature
map (the `BTreeMap` of the callers in `blockchain/src/test.rs`), keyed by
network public key. -/
def sigLookup (sigs : List (Nat × Nat)) (pk : Nat) : Option Nat :=
  (sigs.find? (fun e => e.1 == pk)).map (fun e => e.2)

/-- Insertion of a newly arrived partial signature into the collected map:
replaces the entry of the same key if present, otherwise appends (the
`BTreeMap::insert` semantics of the callers). -/
def insertSig (sigs : List (Nat × Nat)) (pk : Nat) (s : Nat) :
    List (Nat × Nat) :=
  if sigs.any (fun e => e.1 == pk) then
    sigs.map (fun e => if e.1 == pk then (pk, s) else e)
  else
    sigs ++ [(pk, s)]

/-- Indexed aggregation pass: walks the validator list (already canonically
positioned) and, for every validator whose partial signature is present in
the map, adds the partial into the aggregate and records the validator's
position in the participant bitmap. -/
def aggregateFrom (sigs : List (Nat × Nat)) : Nat → List (Nat × Nat) →
    Nat × Finset Nat
  | _, [] => (0, ∅)
  | i, (pk, _) :: rest =>
    let tail := aggregateFrom sigs (i + 1) rest
    match sigLookup sigs pk with
    | some s => (s + tail.1, insert i tail.2)
    | none => tail

/-- Modelled from the spec: `create_multi_signature(validators, signatures)`
(§4.4): combines the collected partial signatures using the aggregation rule
of the signature scheme and records participant identity by position in the
validator list. -/
def createMultiSignature (vs : List (Nat × Nat)) (sigs : List (Nat × Nat)) :
    Nat × Finset Nat :=
  aggregateFrom sigs 0 vs

/-- Stake weight of the bitmap-indicated participants (§4.4). -/
def participantsStake (vs : List (Nat × Nat)) (bm : Finset Nat) : Nat :=
  bm.sum (fun i => (vs.getD i (0, 0)).2)

/-- Combined public key of the bitmap-indicated participants (§4.4). -/
def combinedPkey (vs : List (Nat × Nat)) (bm : Finset Nat) : Nat :=
  bm.sum (fun i => (vs.getD i (0, 0)).1)

/-- Modelled from the spec: `verify(block_hash, aggregate_signature,
participant_bitmap, validator_registry)` (§4.4): checks that the summed stake
weight of the participants exceeds two thirds of the total registry stake
(else `InsufficientQuorum`; the quorum is strictly more than the tolerated
adversarial third, and the end-to-end scenario of §8 places 200 of 300 stake
below quorum), then verifies the aggregate signature against the combined
public key of exactly the bitmap-indicated participants (else
`InvalidAggregateSignature`). -/
def checkMultiSignature (blockHash : Nat) (aggSig : Nat) (bm : Finset Nat)
    (vs : List (Nat × Nat)) : Except ErrKind Unit :=
  if 3 * participantsStake vs bm ≤ 2 * totalStake vs then
    .error .InsufficientQuorum
  else if ¬ sigValid blockHash (combinedPkey vs bm) aggSig then
    .error .InvalidAggregateSignature
  else
    .ok ()

/-- Transaction union (§3). -/
inductive Tx where
  | payment (tx : PaymentTransaction)
  | coinbase (tx : CoinbaseTransaction)
  deriving DecidableEq, Repr

/-- Outputs created by a transaction. -/
def Tx.outputs : Tx → List Output
  | .payment tx => tx.txouts
  | .coinbase tx => tx.txouts

/-- Input hashes consumed by a transaction (a coinbase has none). -/
def Tx.inputHashes : Tx → List Nat
  | .payment tx => tx.txins
  | .coinbase _ => []

/-- Encoding of a transaction into a natural for block hashing. -/
def encodeTx : Tx → Nat
  | .payment tx =>
    Nat.pair 0 (Nat.pair tx.hash (Nat.pair (encodeInt tx.gamma) tx.sig))
  | .coinbase tx =>
    Nat.pair 1 (Nat.pair (encodeInt tx.blockReward)
      (Nat.pair (encodeInt tx.blockFee)
        (Nat.pair (encodeInt tx.gamma) (encodeList (tx.txouts.map hashOutput)))))

/-- Modelled from the spec: a MicroBlock (§3): previous-block hash, epoch,
offset, view-change counter, leader public key, verifiable-random value,
timestamp, ordered transaction list and the leader signature over the block
hash.  The optional proof-of-view-change justification does not take part in
any property below and is elided. -/
structure MicroBlock where
  previous : Nat
  epoch : Nat
  offset : Nat
  viewChange : Nat
  pkey : Nat
  random : Nat
  timestamp : Nat
  transactions : List Tx
  sig : Nat
  deriving DecidableEq, Repr

/-- Modelled from the spec: content hash of a micro block, covering every
header field and the transaction list (but not the signature, which is over
this very hash).  The embedding guarantees, like a real hash chain does, that
a block's hash differs from the previous-hash it embeds. -/
def hashMicroBlock (b : MicroBlock) : Nat :=
  b.previous + encodeList
    [b.previous, b.epoch, b.offset, b.viewChange, b.pkey, b.random,
      b.timestamp, encodeList (b.transactions.map encodeTx)] + 1

/-- Modelled from the spec: the Ledger state (§3): chain height (epoch and
offset), last block hash, last random value, view-change counter, validator
registry and the unspent-output index.  The `history` field records every
output hash ever registered, reflecting that outputs are identified by their
content hash and that a spent output is permanently removed (§3). -/
structure Ledger where
  epoch : Nat
  offset : Nat
  viewChange : Nat
  lastBlockHash : Nat
  lastRandom : Nat
  validators : List (Nat × Nat)
  unspent : List (Nat × Output)
  history : List Nat
  deriving DecidableEq, Repr

/-- Hash keys of the current unspent-output index. -/
def unspentKeys (L : Ledger) : List Nat := L.unspent.map (fun e => e.1)

/-- Well-formedness of the ledger: every unspent key is recorded in the
history and the index holds each key at most once. -/
def LedgerWF (L : Ledger) : Prop :=
  (∀ h ∈ unspentKeys L, h ∈ L.history) ∧ (unspentKeys L).Nodup

instance (L : Ledger) : Decidable (LedgerWF L) := by
  unfold LedgerWF
  exact inferInstance

/-- Resolution and removal of the referenced inputs from the unspent index:
each input hash must be present (else `UnknownInput`); the resolved outputs
are returned together with the reduced index. -/
def spendInputs (up : List (Nat × Output)) : List Nat →
    Except ErrKind (List Output × List (Nat × Output))
  | [] => .ok ([], up)
  | h :: rest =>
    match up.find? (fun e => e.1 == h) with
    | none => .error .UnknownInput
    | some e =>
      match spendInputs (up.filter (fun e2 => e2.1 != h)) rest with
      | .error k => .error k
      | .ok (os, up2) => .ok (e.2 :: os, up2)

/-- Registration of freshly created outputs: every output is keyed by its
content hash, which must never have been registered before (outputs are
identified by their content hash and spent outputs never return, §3). -/
def registerOutputs (up : List (Nat × Output)) (hist : List Nat) :
    List Output → Except ErrKind (List (Nat × Output) × List Nat)
  | [] => .ok (up, hist)
  | o :: rest =>
    let h := hashOutput o
    if h ∈ hist then .error .InvalidOutput
    else registerOutputs ((h, o) :: up) (h :: hist) rest

/-- Validation of a block's transaction list against the current unspent set
(§4.5): each payment resolves and removes its inputs from the set (so no two
transactions of the block can spend the same output, and no transaction can
spend an output created inside the block) and validates against the resolved
input outputs; each coinbase validates its balance.  The collected created
outputs are returned for the mutation phase. -/
def validateBlockTxs (up : List (Nat × Output)) :
    List Tx → Except ErrKind (List (Nat × Output) × List Output)
  | [] => .ok (up, [])
  | .payment tx :: rest =>
    match spendInputs up tx.txins with
    | .error k => .error k
    | .ok (resolved, up2) =>
      match tx.validate resolved with
      | .error k => .error k
      | .ok () =>
        match validateBlockTxs up2 rest with
        | .error k => .error k
        | .ok (up3, outs) => .ok (up3, tx.txouts ++ outs)
  | .coinbase tx :: rest =>
    match tx.validate with
    | .error k => .error k
    | .ok () =>
      match validateBlockTxs up rest with
      | .error k => .error k
      | .ok (up3, outs) => .ok (up3, tx.txouts ++ outs)

/-- Validation of a block's transactions followed by registration of all the
created outputs: removes the spent outputs and inserts the new ones. -/
def applyTransactions (up : List (Nat × Output)) (hist : List Nat)
    (txs : List Tx) : Except ErrKind (List (Nat × Output) × List Nat) :=
  match validateBlockTxs up txs with
  | .error k => .error k
  | .ok (up2, outs) => registerOutputs up2 hist outs

/-- Modelled from the spec: the validation phase of
`validate_and_apply_micro` (§4.5), performed in the documented order:
previous-hash linkage, epoch/offset match, leader matches `select_leader` for
the block's view-change, verifiable-random value matches `mix` of the prior
value, leader signature, then every transaction against the current unspent
set.  It computes the post-state data without mutating anything. -/
def validateMicro (L : Ledger) (b : MicroBlock) :
    Except ErrKind (List (Nat × Output) × List Nat) :=
  if b.previous ≠ L.lastBlockHash then
    .error .ChainLinkageMismatch
  else if b.epoch ≠ L.epoch ∨ b.offset ≠ L.offset then
    .error .EpochOrOffsetMismatch
  else if b.pkey ≠ selectLeader (mix L.lastRandom b.viewChange) L.validators then
    .error .WrongLeader
  else if b.random ≠ vrfValue b.pkey (mix L.lastRandom b.viewChange) then
    .error .StaleOrInvalidViewChange
  else if ¬ sigValid (hashMicroBlock b) b.pkey b.sig then
    .error .InvalidSignature
  else
    applyTransactions L.unspent L.history b.transactions

/-- Modelled from the spec: the mutation phase of `validate_and_apply_micro`
(§4.5): commits the already-validated output-set delta, advances the offset,
resets the view-change counter and moves the chain tip.  This phase is total:
it cannot fail. -/
def applyMicroData (L : Ledger) (b : MicroBlock)
    (d : List (Nat × Output) × List Nat) : Ledger :=
  { L with
    unspent := d.1
    history := d.2
    offset := L.offset + 1
    viewChange := 0
    lastBlockHash := hashMicroBlock b
    lastRandom := b.random }

/-- Modelled from the spec: `validate_and_apply_micro(block)` (§4.5):
validation is fully performed before any mutation, and the mutation operates
only on the validated data. -/
def validateAndApplyMicro (L : Ledger) (b : MicroBlock) :
    Except ErrKind Ledger :=
  (validateMicro L b).map (applyMicroData L b)

/-- Ledger state observed after a call to `validate_and_apply_micro`: the new
state on success, the untouched previous state on failure. -/
def ledgerAfterMicro (L : Ledger) (b : MicroBlock) : Ledger :=
  match validateAndApplyMicro L b with
  | .ok L2 => L2
  | .error _ => L

/-- Reachability between ledger states through successful micro-block
applications. -/
inductive ReachableLedger : Ledger → Ledger → Prop
  | refl (L : Ledger) : ReachableLedger L L
  | step (L1 L2 L3 : Ledger) (b : MicroBlock) : ReachableLedger L1 L2 →
      validateAndApplyMicro L2 b = .ok L3 → ReachableLedger L1 L3

/-- Input hashes consumed by every transaction of a block. -/
def blockInputHashes (b : MicroBlock) : List Nat :=
  b.transactions.flatMap Tx.inputHashes

/-- Hashes of the outputs created by every transaction of a block. -/
def blockOutputHashes (b : MicroBlock) : List Nat :=
  (b.transactions.flatMap Tx.outputs).map hashOutput

/-- Buffered state of the console service (`console.rs`): the input buffer of
bytes received so far.  The network node handle and the thread id play no
part in `on_input` beyond receiving the dispatched command. -/
structure ConsoleState where
  buf : List Nat
  deriving DecidableEq, Repr

/-- Command dispatched by the console service when a line is complete: a dial
request with the multiaddr text, a publish request with topic and message, or
the usage message printed for anything else.  The external effects (multiaddr
parsing, the node calls, printing) are outside this core and are represented
by the command value itself. -/
inductive ConsoleCommand where
  | dial (target : List Nat)
  | publish (topic : List Nat) (message : List Nat)
  | usage
  deriving DecidableEq, Repr

/-- Outcome of one `on_input` step: nothing happened beyond buffering, a
command was dispatched, or the service thread panicked (invalid UTF-8 buffer
at the `String::from_utf8(...).unwrap()` of `console.rs` line 52, or the
out-of-range or non-character-boundary slice `msg[10..]` of line 60). -/
inductive ConsoleOutcome where
  | silent
  | dispatched (cmd : ConsoleCommand)
  | panicked
  deriving DecidableEq, Repr

/-- Byte-level test that a list begins with the given pattern, mirroring
`str::starts_with` on the UTF-8 bytes. -/
def bytesStartWith (pat l : List Nat) : Bool := l.take pat.length == pat

/-- Byte sequence of the string "/dial " used by the console dispatcher. -/
def dialPat : List Nat := [47, 100, 105, 97, 108, 32]

/-- Byte sequence of the string "/publish " used by the console dispatcher. -/
def publishPat : List Nat := [47, 112, 117, 98, 108, 105, 115, 104, 32]

/-- UTF-8 continuation byte (0x80-0xBF). -/
def utf8Cont (b : Nat) : Bool := 128 ≤ b && b ≤ 191

/-- Admissible second byte of a three-byte UTF-8 sequence headed by the given
first byte, per Rust std validation: 0xE0 requires 0xA0-0xBF (no overlongs),
0xED requires 0x80-0x9F (no surrogates), the rest a plain continuation. -/
def utf8Second3 (b0 b1 : Nat) : Bool :=
  if b0 = 224 then 160 ≤ b1 && b1 ≤ 191
  else if b0 = 237 then 128 ≤ b1 && b1 ≤ 159
  else utf8Cont b1

/-- Admissible second byte of a four-byte UTF-8 sequence headed by the given
first byte, per Rust std validation: 0xF0 requires 0x90-0xBF (no overlongs),
0xF4 requires 0x80-0x8F (no code points beyond U+10FFFF), the rest a plain
continuation. -/
def utf8Second4 (b0 b1 : Nat) : Bool :=
  if b0 = 240 then 144 ≤ b1 && b1 ≤ 191
  else if b0 = 244 then 128 ≤ b1 && b1 ≤ 143
  else utf8Cont b1

/-- UTF-8 validity of a byte sequence, as checked by the
`String::from_utf8(...)` of `console.rs` line 52 (Rust std rejects overlong
encodings, surrogates and code points beyond U+10FFFF). -/
def utf8Valid : List Nat → Bool
  | [] => true
  | b0 :: rest =>
    if b0 ≤ 127 then utf8Valid rest
    else if 194 ≤ b0 ∧ b0 ≤ 223 then
      match rest with
      | b1 :: rest2 => utf8Cont b1 && utf8Valid rest2
      | [] => false
    else if 224 ≤ b0 ∧ b0 ≤ 239 then
      match rest with
      | b1 :: b2 :: rest2 => utf8Second3 b0 b1 && utf8Cont b2 && utf8Valid rest2
      | _ => false
    else if 240 ≤ b0 ∧ b0 ≤ 244 then
      match rest with
      | b1 :: b2 :: b3 :: rest2 =>
        utf8Second4 b0 b1 && utf8Cont b2 && utf8Cont b3 && utf8Valid rest2
      | _ => false
    else false

/-- Dispatch of a completed console line (`console.rs` lines 52-67),
including its panic paths, which are returned as `none`.  The buffer must be
valid UTF-8, else `String::from_utf8(...).unwrap()` (line 52) panics.  A line
starting with "/dial " dials the rest (byte index 6 follows the ASCII prefix,
so that slice cannot panic; the multiaddr parse and the node call are
external effects).  A line starting with "/publish " splits at the first
space of the rest; when a space exists at relative byte index `sep_pos`, the
slices `msg[9..9+sep_pos]` and `msg[9+sep_pos+1..]` sit on character
boundaries next to ASCII bytes and cannot panic; when there is none,
`sep_pos` falls back to 0 and line 60 slices `msg[10..]`, which panics when
the line is shorter than 10 bytes (the bare "/publish " line) or when byte 10
exists and is a UTF-8 continuation byte (not a character boundary).  Anything
else prints the usage message. -/
def dispatchLine (msg : List Nat) : Option ConsoleCommand :=
  if ¬ utf8Valid msg then
    none
  else if bytesStartWith dialPat msg then
    some (.dial (msg.drop 6))
  else if bytesStartWith publishPat msg then
    let rest := msg.drop 9
    match rest.findIdx? (fun c => c == 32) with
    | some sepPos => some (.publish (rest.take sepPos) (rest.drop (sepPos + 1)))
    | none =>
      if msg.length < 10 then none
      else if 10 < msg.length ∧ utf8Cont (msg.getD 10 0) then none
      else some (.publish [] (rest.drop 1))
  else
    some .usage

/-- Embedding of `ConsoleService::on_input` (`console.rs` lines 44-68): a
byte other than carriage return (13) and line feed (10) is appended to the
buffer; a carriage return or line feed with an empty buffer does nothing;
otherwise the buffer is taken (emptied by `mem::replace` before anything can
panic) and the completed line is dispatched, or the thread panics on the
line's panic paths — after a panic the service is dead and its state
unobservable. -/
def onInput (st : ConsoleState) (ch : Nat) :
    ConsoleState × ConsoleOutcome :=
  if ch ≠ 13 ∧ ch ≠ 10 then
    ({ buf := st.buf ++ [ch] }, .silent)
  else if st.buf = [] then
    (st, .silent)
  else
    match dispatchLine st.buf with
    | some cmd => ({ buf := [] }, .dispatched cmd)
    | none => ({ buf := [] }, .panicked)

/-- Error type of the WebSocket layer as used by `api/src/lib.rs`: `decode`
reports every failure as `RequestError("Invalid request")`. -/
inductive WebSocketError where
  | RequestError (msg : String)
  deriving DecidableEq, Repr

/-- Character of the standard base64 alphabet at a 6-bit index, as the
`base64` crate's standard configuration emits it (ASCII code). -/
def b64Char (n : Nat) : Nat :=
  if n < 26 then 65 + n
  else if n < 52 then 97 + (n - 26)
  else if n < 62 then 48 + (n - 52)
  else if n = 62 then 43
  else 47

/-- Inverse of the standard base64 alphabet: the 6-bit index of an ASCII
code, or none for a character outside the alphabet. -/
def b64Index (c : Nat) : Option Nat :=
  if 65 ≤ c ∧ c ≤ 90 then some (c - 65)
  else if 97 ≤ c ∧ c ≤ 122 then some (26 + (c - 97))
  else if 48 ≤ c ∧ c ≤ 57 then some (52 + (c - 48))
  else if c = 43 then some 62
  else if c = 47 then some 63
  else none

/-- Base64 encoding of a byte sequence (`base64::encode` with the standard
padded alphabet): groups of three bytes become four alphabet characters, a
trailing group of one or two bytes is padded with "=" (ASCII 61). -/
def b64encode : List Nat → List Nat
  | [] => []
  | [b0] => [b64Char (b0 / 4), b64Char (b0 % 4 * 16), 61, 61]
  | [b0, b1] =>
    [b64Char (b0 / 4), b64Char (b0 % 4 * 16 + b1 / 16), b64Char (b1 % 16 * 4), 61]
  | b0 :: b1 :: b2 :: rest =>
    b64Char (b0 / 4) :: b64Char (b0 % 4 * 16 + b1 / 16) ::
      b64Char (b1 % 16 * 4 + b2 / 64) :: b64Char (b2 % 64) :: b64encode rest

/-- Base64 decoding of a character sequence (`base64::decode`): the length
must be a multiple of four, every character must be in the alphabet, and
padding may appear only at the end. -/
def b64decode : List Nat → Except Unit (List Nat)
  | [] => .ok []
  | c0 :: c1 :: c2 :: c3 :: rest =>
    match b64Index c0, b64Index c1 with
    | some i0, some i1 =>
      if c2 = 61 then
        if c3 = 61 ∧ rest = [] then .ok [i0 * 4 + i1 / 16] else .error ()
      else
        match b64Index c2 with
        | some i2 =>
          if c3 = 61 then
            if rest = [] then .ok [i0 * 4 + i1 / 16, i1 % 16 * 16 + i2 / 4]
            else .error ()
          else
            match b64Index c3 with
            | some i3 =>
              match b64decode rest with
              | .error e => .error e
              | .ok tl =>
                .ok ((i0 * 4 + i1 / 16) :: (i1 % 16 * 16 + i2 / 4) ::
                  (i2 % 4 * 64 + i3) :: tl)
            | none => .error ()
        | none => .error ()
    | _, _ => .error ()
  | _ => .error ()

/-- Keystream byte of the token cipher at a position. -/
def keystreamAt (tok : List Nat) (i : Nat) : Nat :=
  tok.getD (i % tok.length) 0 % 256

/-- Stream-cipher pass starting at a keystream position: each byte is xored
with the keystream byte at its position. -/
def cipherFrom (tok : List Nat) : Nat → List Nat → List Nat
  | _, [] => []
  | i, b :: rest => (b ^^^ keystreamAt tok i) :: cipherFrom tok (i + 1) rest

/-- Modelled from the spec: `encrypt` of the api crate's crypto module (the
module is referenced by `api/src/lib.rs` but its source is not in the
repository).  It is a symmetric token-keyed stream cipher; the embedding
xors the message with a token-derived keystream. -/
def encrypt (tok msg : List Nat) : List Nat := cipherFrom tok 0 msg

/-- Modelled from the spec: `decrypt` of the api crate's crypto module, the
inverse pass of `encrypt` under the same token. -/
def decrypt (tok msg : List Nat) : List Nat := cipherFrom tok 0 msg

/-- Embedding of `encode` (`api/src/lib.rs` lines 155-160): serialize the
message, encrypt it with the api token, and base64-encode the result.  The
serializer is a parameter standing for `serde_json::to_vec`. -/
def apiEncode {α : Type} (ser : α → List Nat) (apiToken : List Nat)
    (msg : α) : List Nat :=
  b64encode (encrypt apiToken (ser msg))

/-- Embedding of `decode` (`api/src/lib.rs` lines 162-183): base64-decode
(failures become `RequestError "Invalid request"`), decrypt with the api
token, and deserialize (failures become `RequestError "Invalid request"`).
The deserializer is a parameter standing for `serde_json::from_slice`. -/
def apiDecode {α : Type} (deser : List Nat → Option α) (apiToken : List Nat)
    (msg : List Nat) : Except WebSocketError α :=
  match b64decode msg with
  | .error _ => .error (.RequestError "Invalid request")
  | .ok m =>
    match deser (decrypt apiToken m) with
    | none => .error (.RequestError "Invalid request")
    | some v => .ok v

/-- Validator registry of the end-to-end scenario of §8: three validators of
100 stake each. -/
def exValidators : List (Nat × Nat) := [(1, 100), (2, 100), (3, 100)]

/-- Partial signature of validator 1 alone over block hash 5. -/
def exOneSig : List (Nat × Nat) := [(1, signPartial 5 1)]

/-- Concrete confidential input of the C1 witness scenario. -/
def exIn : Output := .payment 5 7 2

/-- Concrete confidential output of the C1 witness scenario. -/
def exOut : Output := .payment 5 7 1

/-- Payment transaction of the C1 witness scenario, exactly the value
produced by `Payment::new` on `exIn`, `exOut`, blinding 1 and fee 0. -/
def exPayTx : PaymentTransaction :=
  { txins := [hashOutput exIn], txouts := [exOut], gamma := 1, fee := 0,
    sig := signHash 5 (paymentTxHash [hashOutput exIn] [exOut] 0) }

/-- Collection of partial signatures in arrival order, one `BTreeMap::insert`
per arriving partial, starting from the empty map. -/
def collectSigs (arrivals : List (Nat × Nat)) : List (Nat × Nat) :=
  arrivals.foldl (fun m e => insertSig m e.1 e.2) []

/-- Confidential output spent by the ledger witness scenario. -/
def exSpentOutput : Output := .payment 5 7 0

/-- Confidential output created by the ledger witness scenario. -/
def exNewOutput : Output := .payment 5 7 1

/-- Payment transaction of the ledger witness scenario, spending
`exSpentOutput` into `exNewOutput`. -/
def exLedgerTx : PaymentTransaction :=
  { txins := [hashOutput exSpentOutput], txouts := [exNewOutput], gamma := -1,
    fee := 0,
    sig := signHash 5 (paymentTxHash [hashOutput exSpentOutput] [exNewOutput] 0) }

/-- Initial ledger of the witness scenario: a single validator of stake one
and one unspent confidential output. -/
def exLedger : Ledger :=
  { epoch := 0, offset := 0, viewChange := 0, lastBlockHash := 0,
    lastRandom := 0, validators := [(7, 1)],
    unspent := [(hashOutput exSpentOutput, exSpentOutput)],
    history := [hashOutput exSpentOutput] }

/-- Unsigned header of the witness micro block. -/
def exBlockBase : MicroBlock :=
  { previous := 0, epoch := 0, offset := 0, viewChange := 0, pkey := 7,
    random := vrfValue 7 (mix 0 0), timestamp := 0,
    transactions := [.payment exLedgerTx], sig := 0 }

/-- Witness micro block, signed by the leader over its hash. -/
def exBlock : MicroBlock :=
  { exBlockBase with sig := signHash 7 (hashMicroBlock exBlockBase) }

/-- Ledger state after applying the witness micro block. -/
def exLedgerAfter : Ledger :=
  applyMicroData exLedger exBlock
    ([(hashOutput exNewOutput, exNewOutput)],
     [hashOutput exNewOutput, hashOutput exSpentOutput])

/-- Witness block failing the linkage check: its previous hash does not match
the ledger tip. -/
def exBadBlock : MicroBlock := { exBlock with previous := 1 }

theorem Commitment.add_def (a b : Commitment) :
    a + b = ⟨a.amount + b.amount, a.gamma + b.gamma⟩ := rfl

theorem Commitment.sub_def (a b : Commitment) :
    a - b = ⟨a.amount - b.amount, a.gamma - b.gamma⟩ := rfl

theorem sumCommitments_cons (o : Output) (os : List Output) :
    sumCommitments (o :: os) = o.commitment + sumCommitments os := rfl

theorem Output.perturb_commitment (o : Output) (d : Int) :
    (o.perturb d).commitment = o.commitment + ⟨d, 0⟩ := by
  cases o <;> simp [Output.perturb, Output.commitment, Commitment.add_def]

theorem sumCommitments_perturbAt (d : Int) (xs : List Output) (j : Nat)
    (hj : j < xs.length) :
    sumCommitments (perturbAt d xs j) = sumCommitments xs + ⟨d, 0⟩ := by
  induction xs generalizing j with
  | nil => simp at hj
  | cons o rest ih =>
    cases j with
    | zero =>
      simp only [perturbAt, sumCommitments_cons, Output.perturb_commitment,
        Commitment.add_def]
      ext <;> (simp; try ring)
    | succ j2 =>
      have hj2 : j2 < rest.length := by simpa using hj
      simp only [perturbAt, sumCommitments_cons, ih j2 hj2, Commitment.add_def]
      ext <;> (simp; try ring)

/-- C6: a Coinbase transaction validates exactly when the sum of its declared
output commitments equals the public commitment of block_reward plus
block_fee adjusted by the declared gamma blinding; the transaction carries no
signature field, so no signature takes part in the check. -/
theorem c6_coinbase_balance (tx : CoinbaseTransaction) :
    tx.validate = .ok () ↔
      sumCommitments tx.txouts =
        commitAmount (tx.blockReward + tx.blockFee) - commitBlinding tx.gamma := by
  unfold CoinbaseTransaction.validate
  split_ifs with h <;> simp [h]

/-- C10: the console input handler buffers every byte other than carriage
return and line feed, dispatching nothing; a carriage return or line feed on
an empty buffer changes nothing; a command (dial, publish or the usage
message) is dispatched only when a carriage return or line feed arrives with
a non-empty buffer, the dispatched command is the one `dispatchLine` parses
from the buffer, and the buffer is empty afterwards; and whenever the
completed line reaches a dispatch (its `dispatchLine` is not a panic path),
that command is in fact dispatched. -/
theorem c10_console_on_input (st : ConsoleState) (ch : Nat) :
    (ch ≠ 13 → ch ≠ 10 → onInput st ch = ({ buf := st.buf ++ [ch] }, .silent)) ∧
    ((ch = 13 ∨ ch = 10) → st.buf = [] → onInput st ch = (st, .silent)) ∧
    (∀ st2 cmd, onInput st ch = (st2, .dispatched cmd) →
      (ch = 13 ∨ ch = 10) ∧ st.buf ≠ [] ∧ st2.buf = [] ∧
      dispatchLine st.buf = some cmd) ∧
    ((ch = 13 ∨ ch = 10) → st.buf ≠ [] → ∀ cmd,
      dispatchLine st.buf = some cmd →
      onInput st ch = ({ buf := [] }, .dispatched cmd)) := by
  refine ⟨fun h1 h2 => ?_, fun h1 h2 => ?_, fun st2 cmd heq => ?_,
    fun h1 h2 cmd hd => ?_⟩
  · unfold onInput
    rw [if_pos ⟨h1, h2⟩]
  · unfold onInput
    have hn : ¬(ch ≠ 13 ∧ ch ≠ 10) := by tauto
    rw [if_neg hn, if_pos h2]
  · unfold onInput at heq
    by_cases h1 : ch ≠ 13 ∧ ch ≠ 10
    · rw [if_pos h1] at heq
      exact absurd (congrArg Prod.snd heq) (by simp)
    · rw [if_neg h1] at heq
      by_cases h2 : st.buf = []
      · rw [if_pos h2] at heq
        exact absurd (congrArg Prod.snd heq) (by simp)
      · rw [if_neg h2] at heq
        cases hd : dispatchLine st.buf with
        | none =>
          rw [hd] at heq
          exact absurd (congrArg Prod.snd heq) (by simp)
        | some c =>
          rw [hd] at heq
          have hst : ({ buf := [] } : ConsoleState) = st2 :=
            congrArg Prod.fst heq
          have hcmd : ConsoleOutcome.dispatched c = .dispatched cmd :=
            congrArg Prod.snd heq
          refine ⟨by omega, h2, by rw [← hst], ?_⟩
          exact congrArg some (ConsoleOutcome.dispatched.inj hcmd)
  · unfold onInput
    have hn : ¬(ch ≠ 13 ∧ ch ≠ 10) := by tauto
    rw [if_neg hn, if_neg h2, hd]

/-- Closed instance of C10: a printable byte is buffered, a line feed on the
empty buffer is ignored, a carriage return on a non-empty plain-text buffer
dispatches the usage command and clears the buffer, and the dispatched
command on that line is necessarily tied to the carriage return, the
non-empty buffer and the cleared buffer. -/
theorem c10_console_on_input_witness :
    onInput ⟨[]⟩ 97 = (⟨[97]⟩, .silent) ∧
    onInput ⟨[]⟩ 10 = (⟨[]⟩, .silent) ∧
    onInput ⟨[104, 105]⟩ 13 = (⟨[]⟩, .dispatched .usage) ∧
    ((13 = 13 ∨ 13 = 10) ∧ ([104, 105] : List Nat) ≠ [] ∧
      (⟨[]⟩ : ConsoleState).buf = [] ∧
      dispatchLine [104, 105] = some .usage) :=
  ⟨(c10_console_on_input ⟨[]⟩ 97).1 (by decide) (by decide),
   (c10_console_on_input ⟨[]⟩ 10).2.1 (Or.inr rfl) rfl,
   (c10_console_on_input ⟨[104, 105]⟩ 13).2.2.2 (Or.inl rfl) (by decide)
     ConsoleCommand.usage (by decide),
   (c10_console_on_input ⟨[104, 105]⟩ 13).2.2.1 ⟨[]⟩ ConsoleCommand.usage
     (by decide)⟩

theorem validatorLe_total (a b : Nat × Nat) :
    validatorLe a b = true ∨ validatorLe b a = true := by
  rcases a with ⟨a1, a2⟩
  rcases b with ⟨b1, b2⟩
  simp only [validatorLe, Bool.or_eq_true, decide_eq_true_eq, Bool.and_eq_true,
    beq_iff_eq]
  omega

theorem validatorLe_antisymm_aux (a b : Nat × Nat) (hab : validatorLe a b = true)
    (hba : validatorLe b a = true) : a = b := by
  rcases a with ⟨a1, a2⟩
  rcases b with ⟨b1, b2⟩
  simp only [validatorLe, Bool.or_eq_true, decide_eq_true_eq, Bool.and_eq_true,
    beq_iff_eq] at hab hba
  have h1 : a1 = b1 := by omega
  subst h1
  have h2 : a2 = b2 := by omega
  simp [h2]

theorem insertSorted_perm (x : Nat × Nat) (l : List (Nat × Nat)) :
    (insertSorted x l).Perm (x :: l) := by
  induction l with
  | nil => exact List.Perm.refl _
  | cons y ys ih =>
    unfold insertSorted
    split
    · exact List.Perm.refl _
    · exact (ih.cons y).trans (List.Perm.swap x y ys)

theorem validatorLe_trans (a b c : Nat × Nat) (hab : validatorLe a b = true)
    (hbc : validatorLe b c = true) : validatorLe a c = true := by
  rcases a with ⟨a1, a2⟩
  rcases b with ⟨b1, b2⟩
  rcases c with ⟨c1, c2⟩
  simp only [validatorLe, Bool.or_eq_true, decide_eq_true_eq, Bool.and_eq_true,
    beq_iff_eq] at hab hbc ⊢
  omega

theorem insertSorted_sorted (x : Nat × Nat) : ∀ l : List (Nat × Nat),
    l.Sorted (fun a b => validatorLe a b = true) →
    (insertSorted x l).Sorted (fun a b => validatorLe a b = true) := by
  intro l
  induction l with
  | nil => intro _; simp [insertSorted]
  | cons y ys ih =>
    intro hl
    rw [List.sorted_cons] at hl
    by_cases hxy : validatorLe x y = true
    · rw [show insertSorted x (y :: ys) = x :: y :: ys from by
        simp [insertSorted, hxy]]
      rw [List.sorted_cons]
      constructor
      · intro b hb
        rcases List.mem_cons.mp hb with hb | hb
        · exact hb ▸ hxy
        · exact validatorLe_trans x y b hxy (hl.1 b hb)
      · exact List.sorted_cons.mpr hl
    · rw [show insertSorted x (y :: ys) = y :: insertSorted x ys from by
        simp [insertSorted, hxy]]
      rw [List.sorted_cons]
      constructor
      · intro b hb
        have hb2 : b = x ∨ b ∈ ys := by
          simpa using (insertSorted_perm x ys).mem_iff.mp hb
        rcases hb2 with hb2 | hb2
        · rcases validatorLe_total x y with h | h
          · exact absurd h hxy
          · rw [hb2]
            exact h
        · exact hl.1 b hb2
      · exact ih hl.2

theorem sortValidators_perm (vs : List (Nat × Nat)) :
    (sortValidators vs).Perm vs := by
  induction vs with
  | nil => exact List.Perm.refl _
  | cons v rest ih =>
    exact (insertSorted_perm v (sortValidators rest)).trans (ih.cons v)

theorem sortValidators_sorted (vs : List (Nat × Nat)) :
    (sortValidators vs).Sorted (fun a b => validatorLe a b = true) := by
  induction vs with
  | nil => simp [sortValidators]
  | cons v rest ih => exact insertSorted_sorted v (sortValidators rest) ih

theorem sortValidators_eq_of_perm (vs1 vs2 : List (Nat × Nat))
    (h : vs1.Perm vs2) : sortValidators vs1 = sortValidators vs2 := by
  haveI : IsAntisymm (Nat × Nat) (fun a b => validatorLe a b = true) :=
    ⟨validatorLe_antisymm_aux⟩
  exact List.eq_of_perm_of_sorted
    (((sortValidators_perm vs1).trans h).trans (sortValidators_perm vs2).symm)
    (sortValidators_sorted vs1) (sortValidators_sorted vs2)

/-- C4: leader selection is a pure, deterministic function of the seed and
the validator set content: two content-equal validator lists, however they
were ordered during construction, yield the identical leader for every
seed. -/
theorem c4_select_leader_deterministic (seed : Nat)
    (vs1 vs2 : List (Nat × Nat)) (h : vs1.Perm vs2) :
    selectLeader seed vs1 = selectLeader seed vs2 := by
  unfold selectLeader
  rw [sortValidators_eq_of_perm vs1 vs2 h]

/-- Closed instance of C4: two orderings of the same two validators give the
same leader. -/
theorem c4_select_leader_deterministic_witness :
    selectLeader 11 [(1, 2), (7, 5)] = selectLeader 11 [(7, 5), (1, 2)] :=
  c4_select_leader_deterministic 11 [(1, 2), (7, 5)] [(7, 5), (1, 2)]
    (by decide)

/-- C2: multisignature verification reports `InsufficientQuorum` whenever the
participants' summed stake is below two thirds of the total registry stake,
whatever the aggregate signature is; it reports
`InvalidAggregateSignature` when the quorum is met but the aggregate
signature does not verify against the combined public key of the
bitmap-indicated participants; the two error kinds are distinct
constructors, never merged. -/
theorem c2_multisig_verify_errors (bh s : Nat) (bm : Finset Nat)
    (vs : List (Nat × Nat)) :
    (3 * participantsStake vs bm < 2 * totalStake vs →
      checkMultiSignature bh s bm vs = .error .InsufficientQuorum) ∧
    (2 * totalStake vs < 3 * participantsStake vs bm →
      sigValid bh (combinedPkey vs bm) s = false →
      checkMultiSignature bh s bm vs = .error .InvalidAggregateSignature) ∧
    ErrKind.InsufficientQuorum ≠ ErrKind.InvalidAggregateSignature := by
  refine ⟨fun h1 => ?_, fun h1 h2 => ?_, by decide⟩
  · unfold checkMultiSignature
    rw [if_pos (by omega)]
  · unfold checkMultiSignature
    rw [if_neg (by omega), if_pos (by simp [h2])]

/-- Closed instance of C2: one valid partial out of three equal stakes (100
of 300, below two thirds) is rejected with `InsufficientQuorum`; a
full-quorum bitmap with a corrupted aggregate is rejected with
`InvalidAggregateSignature`. -/
theorem c2_multisig_verify_errors_witness :
    checkMultiSignature 5 (createMultiSignature exValidators exOneSig).1
      (createMultiSignature exValidators exOneSig).2 exValidators =
      .error .InsufficientQuorum ∧
    checkMultiSignature 5 0 {0, 1, 2} exValidators =
      .error .InvalidAggregateSignature :=
  ⟨(c2_multisig_verify_errors 5 (createMultiSignature exValidators exOneSig).1
      (createMultiSignature exValidators exOneSig).2 exValidators).1 (by decide),
   (c2_multisig_verify_errors 5 0 {0, 1, 2} exValidators).2.1 (by decide)
      (by decide)⟩

/-- C1: the Payment balance law.  First: a transaction built by
`Payment::new` satisfies `sum(input commitments) - sum(output commitments) -
fee_commitment = zero_commitment` adjusted by the supplied total blinding.
Second: `Payment::new` fails with `UnbalancedTransaction` whenever the
residual is nonzero.  Third: perturbing any single output amount of a
transaction that validates, by one unit in either direction, makes
validation fail with `UnbalancedTransaction`. -/
theorem c1_payment_balance (skey : Nat) (inputs outputs ins : List Output)
    (tb fee : Int) (tx : PaymentTransaction) (j : Nat) (d : Int) :
    (PaymentTransaction.new skey inputs outputs tb fee = .ok tx →
      sumCommitments inputs - sumCommitments tx.txouts - commitAmount tx.fee =
        commitBlinding tb) ∧
    (sumCommitments inputs - sumCommitments outputs - commitAmount fee ≠
        commitBlinding tb →
      PaymentTransaction.new skey inputs outputs tb fee =
        .error .UnbalancedTransaction) ∧
    (tx.validate ins = .ok () → j < tx.txouts.length → (d = 1 ∨ d = -1) →
      (tx.perturbOut j d).validate ins = .error .UnbalancedTransaction) := by
  refine ⟨fun hok => ?_, fun hne => ?_, fun hv hj hd => ?_⟩
  · unfold PaymentTransaction.new at hok
    split at hok
    · simp at hok
    · rename_i hbal
      rw [not_not] at hbal
      have htx := Except.ok.inj hok
      rw [← htx]
      simpa using hbal
  · unfold PaymentTransaction.new
    rw [if_pos hne]
  · unfold PaymentTransaction.validate at hv
    split at hv
    · simp at hv
    split at hv
    · simp at hv
    rename_i hins hbal
    rw [not_not] at hbal
    unfold PaymentTransaction.validate
    have he1 : (tx.perturbOut j d).txins = tx.txins := rfl
    have he2 : (tx.perturbOut j d).txouts = perturbAt d tx.txouts j := rfl
    have he3 : (tx.perturbOut j d).fee = tx.fee := rfl
    have he4 : (tx.perturbOut j d).gamma = tx.gamma := rfl
    rw [he1, he2, he3, he4, if_neg hins, if_pos ?_]
    rw [sumCommitments_perturbAt d tx.txouts j hj]
    intro hcon
    rw [Commitment.ext_iff] at hcon
    have hb2 := hbal
    rw [Commitment.ext_iff] at hb2
    rcases hb2 with ⟨hba, hbg⟩
    simp only [Commitment.sub_def, Commitment.add_def, commitAmount,
      commitBlinding] at hba hbg hcon
    rcases hcon with ⟨hca, hcg⟩
    simp at hba hbg hca hcg
    rcases hd with hd | hd <;> omega

/-- Closed instance of C1: the constructed transaction satisfies the balance
law, and perturbing its single output by one unit makes validation fail with
`UnbalancedTransaction`. -/
theorem c1_payment_balance_witness :
    sumCommitments [exIn] - sumCommitments exPayTx.txouts -
      commitAmount exPayTx.fee = commitBlinding 1 ∧
    (exPayTx.perturbOut 0 1).validate [exIn] =
      .error .UnbalancedTransaction :=
  ⟨(c1_payment_balance 5 [exIn] [exOut] [exIn] 1 0 exPayTx 0 1).1 (by decide),
   (c1_payment_balance 5 [exIn] [exOut] [exIn] 1 0 exPayTx 0 1).2.2 (by decide)
      (by decide) (Or.inl rfl)⟩

theorem sigLookup_cons (k v pk : Nat) (m : List (Nat × Nat)) :
    sigLookup ((k, v) :: m) pk = if k == pk then some v else sigLookup m pk := by
  by_cases h : (k == pk) = true
  · simp [sigLookup, List.find?_cons_of_pos, h]
  · simp only [Bool.not_eq_true] at h
    simp [sigLookup, List.find?_cons_of_neg, h]

theorem sigLookup_perm (l1 l2 : List (Nat × Nat)) (hp : l1.Perm l2)
    (hn : (l1.map Prod.fst).Nodup) (pk : Nat) :
    sigLookup l1 pk = sigLookup l2 pk := by
  induction hp with
  | nil => rfl
  | cons x hp2 ih =>
    rcases x with ⟨k, v⟩
    simp only [List.map_cons, List.nodup_cons] at hn
    rw [sigLookup_cons, sigLookup_cons, ih hn.2]
  | swap x y l =>
    rcases x with ⟨k1, v1⟩
    rcases y with ⟨k2, v2⟩
    simp only [List.map_cons, List.nodup_cons, List.mem_cons] at hn
    have hne : k2 ≠ k1 := fun hc => hn.1 (Or.inl hc)
    rw [sigLookup_cons, sigLookup_cons, sigLookup_cons, sigLookup_cons]
    by_cases h1 : (k1 == pk) = true
    · have h2 : (k2 == pk) = false := by
        rw [beq_iff_eq] at h1
        rw [beq_eq_false_iff_ne]
        intro hc
        exact hne (hc.trans h1.symm)
      simp [h1, h2]
    · simp only [Bool.not_eq_true] at h1
      simp [h1]
  | trans hp1 hp2 ih1 ih2 =>
    rw [ih1 hn, ih2 (((hp1.map Prod.fst).nodup_iff).mp hn)]

theorem aggregateFrom_congr (s1 s2 : List (Nat × Nat))
    (h : ∀ pk, sigLookup s1 pk = sigLookup s2 pk) :
    ∀ (vs : List (Nat × Nat)) (i : Nat),
      aggregateFrom s1 i vs = aggregateFrom s2 i vs := by
  intro vs
  induction vs with
  | nil => intro i; rfl
  | cons v rest ih =>
    intro i
    rcases v with ⟨pk, st⟩
    simp only [aggregateFrom, ih (i + 1), h pk]

theorem collectSigs_aux (l : List (Nat × Nat)) :
    ∀ acc : List (Nat × Nat), (∀ e ∈ l, e.1 ∉ acc.map Prod.fst) →
    (l.map Prod.fst).Nodup →
    l.foldl (fun m e => insertSig m e.1 e.2) acc = acc ++ l := by
  induction l with
  | nil => intro acc _ _; simp
  | cons e rest ih =>
    intro acc hfresh hn
    simp only [List.map_cons, List.nodup_cons] at hn
    have hstep : insertSig acc e.1 e.2 = acc ++ [e] := by
      unfold insertSig
      rw [if_neg ?_]
      have he : e.1 ∉ acc.map Prod.fst := hfresh e (List.mem_cons_self e rest)
      intro hc
      rcases List.any_eq_true.mp hc with ⟨a, ha, hak⟩
      exact he (List.mem_map.mpr ⟨a, ha, beq_iff_eq.mp hak⟩)
    simp only [List.foldl_cons, hstep]
    rw [ih (acc ++ [e]) ?_ hn.2]
    · simp
    · intro e2 he2
      simp only [List.map_append, List.mem_append]
      intro hc
      rcases hc with hc | hc
      · exact hfresh e2 (List.mem_cons_of_mem e he2) hc
      · simp only [List.map_cons, List.map_nil, List.mem_singleton] at hc
        exact hn.1 (hc ▸ List.mem_map.mpr ⟨e2, he2, rfl⟩)

theorem collectSigs_eq (l : List (Nat × Nat))
    (hn : (l.map Prod.fst).Nodup) : collectSigs l = l := by
  unfold collectSigs
  rw [collectSigs_aux l [] (by simp) hn]
  simp

theorem sigLookup_map_replace (m : List (Nat × Nat)) (pk s q : Nat)
    (hq : q ≠ pk) :
    sigLookup (m.map (fun e => if e.1 == pk then (pk, s) else e)) q =
      sigLookup m q := by
  induction m with
  | nil => rfl
  | cons e rest ih =>
    rcases e with ⟨k, v⟩
    by_cases hk : (k == pk) = true
    · rw [beq_iff_eq] at hk
      have hmap : ((k, v) :: rest).map (fun e => if e.1 == pk then (pk, s) else e) =
          (pk, s) :: rest.map (fun e => if e.1 == pk then (pk, s) else e) := by
        simp [hk]
      rw [hmap, sigLookup_cons, sigLookup_cons]
      have h1 : (pk == q) = false := beq_eq_false_iff_ne.mpr (fun hc => hq hc.symm)
      have h2 : (k == q) = false := by
        rw [hk]
        exact h1
      rw [h1, h2]
      simp only [Bool.false_eq_true, if_false]
      exact ih
    · have hk2 : ¬ k = pk := by simpa using hk
      have hmap : ((k, v) :: rest).map (fun e => if e.1 == pk then (pk, s) else e) =
          (k, v) :: rest.map (fun e => if e.1 == pk then (pk, s) else e) := by
        simp [hk2]
      rw [hmap, sigLookup_cons, sigLookup_cons]
      by_cases h3 : (k == q) = true
      · simp [h3]
      · simp only [Bool.not_eq_true] at h3
        simp only [h3, Bool.false_eq_true, if_false]
        exact ih

theorem sigLookup_append_single (m : List (Nat × Nat)) (pk s q : Nat)
    (hq : q ≠ pk) :
    sigLookup (m ++ [(pk, s)]) q = sigLookup m q := by
  induction m with
  | nil =>
    have h1 : (pk == q) = false := beq_eq_false_iff_ne.mpr (fun hc => hq hc.symm)
    simp [sigLookup, List.find?, h1]
  | cons e rest ih =>
    rcases e with ⟨k, v⟩
    rw [List.cons_append, sigLookup_cons, sigLookup_cons, ih]

theorem sigLookup_map_replace_self (m : List (Nat × Nat)) (pk s : Nat)
    (hany : m.any (fun e => e.1 == pk) = true) :
    sigLookup (m.map (fun e => if e.1 == pk then (pk, s) else e)) pk =
      some s := by
  induction m with
  | nil => simp at hany
  | cons e rest ih =>
    rcases e with ⟨k, v⟩
    by_cases hk : (k == pk) = true
    · simp only [List.map_cons, hk, if_pos rfl]
      rw [sigLookup_cons]
      simp
    · simp only [Bool.not_eq_true] at hk
      simp only [List.map_cons, hk, Bool.false_eq_true, if_false]
      rw [sigLookup_cons, hk]
      simp only [Bool.false_eq_true, if_false]
      apply ih
      simp only [List.any_cons, hk, Bool.false_or] at hany
      exact hany

theorem sigLookup_append_single_self (m : List (Nat × Nat)) (pk s : Nat)
    (hany : m.any (fun e => e.1 == pk) = false) :
    sigLookup (m ++ [(pk, s)]) pk = some s := by
  induction m with
  | nil => simp [sigLookup, List.find?]
  | cons e rest ih =>
    rcases e with ⟨k, v⟩
    simp only [List.any_cons, Bool.or_eq_false_iff] at hany
    rw [List.cons_append, sigLookup_cons, hany.1]
    simp only [Bool.false_eq_true, if_false]
    exact ih hany.2

theorem insertSig_lookup (m : List (Nat × Nat)) (pk s q : Nat) :
    sigLookup (insertSig m pk s) q =
      if q = pk then some s else sigLookup m q := by
  unfold insertSig
  by_cases hany : m.any (fun e => e.1 == pk) = true
  · rw [if_pos hany]
    by_cases hq : q = pk
    · rw [if_pos hq, hq]
      exact sigLookup_map_replace_self m pk s hany
    · rw [if_neg hq]
      exact sigLookup_map_replace m pk s q hq
  · simp only [Bool.not_eq_true] at hany
    rw [if_neg (by simp [hany])]
    by_cases hq : q = pk
    · rw [if_pos hq, hq]
      exact sigLookup_append_single_self m pk s hany
    · rw [if_neg hq]
      exact sigLookup_append_single m pk s q hq

theorem keyAt_mem (vs : List (Nat × Nat)) (pk : Nat)
    (h : pk ∈ vs.map Prod.fst) :
    ∃ k, k < vs.length ∧ (vs.getD k (0, 0)).1 = pk := by
  induction vs with
  | nil => simp at h
  | cons v rest ih =>
    rw [List.map_cons, List.mem_cons] at h
    rcases h with hh | hh
    · refine ⟨0, by simp, ?_⟩
      simp only [List.getD_cons_zero]
      exact hh.symm
    · rcases ih hh with ⟨k, hk, hkey⟩
      refine ⟨k + 1, by simpa using hk, ?_⟩
      simpa using hkey

theorem mem_aggregateFrom (sigs : List (Nat × Nat)) :
    ∀ (vs : List (Nat × Nat)) (i j : Nat),
      j ∈ (aggregateFrom sigs i vs).2 ↔
        ∃ k, k < vs.length ∧ j = i + k ∧
          (sigLookup sigs (vs.getD k (0, 0)).1).isSome = true := by
  intro vs
  induction vs with
  | nil => intro i j; simp [aggregateFrom]
  | cons v rest ih =>
    intro i j
    rcases v with ⟨pk, st⟩
    simp only [aggregateFrom]
    cases hl : sigLookup sigs pk with
    | some s =>
      simp only [hl, Finset.mem_insert, ih (i + 1) j]
      constructor
      · rintro (rfl | ⟨k, hk, rfl, hsome⟩)
        · exact ⟨0, by simp, by simp, by simp [hl]⟩
        · exact ⟨k + 1, by simpa using hk, by omega, by simpa using hsome⟩
      · rintro ⟨k, hk, rfl, hsome⟩
        cases k with
        | zero => left; simp
        | succ k2 =>
          right
          exact ⟨k2, by simpa using hk, by omega, by simpa using hsome⟩
    | none =>
      simp only [hl, ih (i + 1) j]
      constructor
      · rintro ⟨k, hk, rfl, hsome⟩
        exact ⟨k + 1, by simpa using hk, by omega, by simpa using hsome⟩
      · rintro ⟨k, hk, rfl, hsome⟩
        cases k with
        | zero => simp [hl] at hsome
        | succ k2 =>
          exact ⟨k2, by simpa using hk, by omega, by simpa using hsome⟩

/-- C5: aggregation is commutative and monotonic.  Collecting the same set of
partials in any arrival order yields the same aggregate signature, the same
participant bitmap, and hence the same verification result; aggregating the
partials of an arrival sequence followed by one more partial is definitionally
re-aggregation over the inserted map; inserting a further partial never
removes a participant from the bitmap, and strictly extends it when the new
partial belongs to a validator that had not signed yet. -/
theorem c5_aggregation_commutative_monotonic (vs arr1 arr2 m : List (Nat × Nat))
    (c : Nat × Nat) (bh : Nat) :
    (arr1.Perm arr2 → (arr1.map Prod.fst).Nodup →
      createMultiSignature vs (collectSigs arr1) =
        createMultiSignature vs (collectSigs arr2)) ∧
    (arr1.Perm arr2 → (arr1.map Prod.fst).Nodup →
      checkMultiSignature bh (createMultiSignature vs (collectSigs arr1)).1
          (createMultiSignature vs (collectSigs arr1)).2 vs =
        checkMultiSignature bh (createMultiSignature vs (collectSigs arr2)).1
          (createMultiSignature vs (collectSigs arr2)).2 vs) ∧
    (collectSigs (arr1 ++ [c]) = insertSig (collectSigs arr1) c.1 c.2) ∧
    ((createMultiSignature vs m).2 ⊆
      (createMultiSignature vs (insertSig m c.1 c.2)).2) ∧
    (c.1 ∈ vs.map Prod.fst → sigLookup m c.1 = none →
      (createMultiSignature vs m).2 ⊂
        (createMultiSignature vs (insertSig m c.1 c.2)).2) := by
  have hkey : arr1.Perm arr2 → (arr1.map Prod.fst).Nodup →
      createMultiSignature vs (collectSigs arr1) =
        createMultiSignature vs (collectSigs arr2) := by
    intro hp hn
    have hn2 : (arr2.map Prod.fst).Nodup := ((hp.map Prod.fst).nodup_iff).mp hn
    rw [collectSigs_eq arr1 hn, collectSigs_eq arr2 hn2]
    unfold createMultiSignature
    exact aggregateFrom_congr arr1 arr2 (sigLookup_perm arr1 arr2 hp hn) vs 0
  have hsub : (createMultiSignature vs m).2 ⊆
      (createMultiSignature vs (insertSig m c.1 c.2)).2 := by
    intro j hj
    unfold createMultiSignature at hj ⊢
    rw [mem_aggregateFrom] at hj ⊢
    rcases hj with ⟨k, hk, hkj, hsome⟩
    refine ⟨k, hk, hkj, ?_⟩
    rw [insertSig_lookup]
    by_cases hc : (vs.getD k (0, 0)).1 = c.1
    · rw [if_pos hc]
      rfl
    · rw [if_neg hc]
      exact hsome
  refine ⟨hkey, fun hp hn => by rw [hkey hp hn], ?_, hsub, fun hmem hnone => ?_⟩
  · simp [collectSigs, List.foldl_append]
  · rw [Finset.ssubset_iff_of_subset hsub]
    rcases keyAt_mem vs c.1 hmem with ⟨k, hk, hkeq⟩
    refine ⟨k, ?_, ?_⟩
    · unfold createMultiSignature
      rw [mem_aggregateFrom]
      refine ⟨k, hk, by omega, ?_⟩
      rw [insertSig_lookup, if_pos hkeq]
      rfl
    · unfold createMultiSignature
      rw [mem_aggregateFrom]
      rintro ⟨k2, hk2, hkeq2, hsome⟩
      have hkk : k2 = k := by omega
      rw [hkk, hkeq, hnone] at hsome
      simp at hsome

/-- Closed instance of C5: two arrival orders of the same two partials give
the same aggregation result over the three-validator registry, and inserting
a partial of a validator that had not signed strictly extends the bitmap. -/
theorem c5_aggregation_commutative_monotonic_witness :
    createMultiSignature exValidators (collectSigs [(1, 11), (2, 22)]) =
      createMultiSignature exValidators (collectSigs [(2, 22), (1, 11)]) ∧
    (createMultiSignature exValidators exOneSig).2 ⊂
      (createMultiSignature exValidators (insertSig exOneSig 2 22)).2 :=
  ⟨(c5_aggregation_commutative_monotonic exValidators [(1, 11), (2, 22)]
      [(2, 22), (1, 11)] exOneSig (2, 22) 0).1 (by decide) (by decide),
   (c5_aggregation_commutative_monotonic exValidators [(1, 11), (2, 22)]
      [(2, 22), (1, 11)] exOneSig (2, 22) 0).2.2.2.2 (by decide) (by decide)⟩

theorem b64Index_b64Char : ∀ n < 64, b64Index (b64Char n) = some n := by decide

theorem b64Char_ne_pad : ∀ n < 64, b64Char n ≠ 61 := by decide

theorem b64_roundtrip : ∀ bs : List Nat, (∀ b ∈ bs, b < 256) →
    b64decode (b64encode bs) = .ok bs := by
  intro bs
  induction bs using b64encode.induct with
  | case1 =>
    intro _
    rfl
  | case2 b0 =>
    intro hb
    have h0 : b0 < 256 := hb b0 (by simp)
    have e0 : b64Index (b64Char (b0 / 4)) = some (b0 / 4) :=
      b64Index_b64Char _ (by omega)
    have e1 : b64Index (b64Char (b0 % 4 * 16)) = some (b0 % 4 * 16) :=
      b64Index_b64Char _ (by omega)
    simp [b64encode, b64decode, e0, e1]
    omega
  | case3 b0 b1 =>
    intro hb
    have h0 : b0 < 256 := hb b0 (by simp)
    have h1 : b1 < 256 := hb b1 (by simp)
    have e0 : b64Index (b64Char (b0 / 4)) = some (b0 / 4) :=
      b64Index_b64Char _ (by omega)
    have e1 : b64Index (b64Char (b0 % 4 * 16 + b1 / 16)) =
        some (b0 % 4 * 16 + b1 / 16) := b64Index_b64Char _ (by omega)
    have e2 : b64Index (b64Char (b1 % 16 * 4)) = some (b1 % 16 * 4) :=
      b64Index_b64Char _ (by omega)
    have hne : b64Char (b1 % 16 * 4) ≠ 61 := b64Char_ne_pad _ (by omega)
    simp [b64encode, b64decode, e0, e1, e2, hne]
    omega
  | case4 b0 b1 b2 rest ih =>
    intro hb
    have h0 : b0 < 256 := hb b0 (by simp)
    have h1 : b1 < 256 := hb b1 (by simp)
    have h2 : b2 < 256 := hb b2 (by simp)
    have hrest : ∀ b ∈ rest, b < 256 := fun b hbr => hb b (by simp [hbr])
    have e0 : b64Index (b64Char (b0 / 4)) = some (b0 / 4) :=
      b64Index_b64Char _ (by omega)
    have e1 : b64Index (b64Char (b0 % 4 * 16 + b1 / 16)) =
        some (b0 % 4 * 16 + b1 / 16) := b64Index_b64Char _ (by omega)
    have e2 : b64Index (b64Char (b1 % 16 * 4 + b2 / 64)) =
        some (b1 % 16 * 4 + b2 / 64) := b64Index_b64Char _ (by omega)
    have e3 : b64Index (b64Char (b2 % 64)) = some (b2 % 64) :=
      b64Index_b64Char _ (by omega)
    have hne2 : b64Char (b1 % 16 * 4 + b2 / 64) ≠ 61 :=
      b64Char_ne_pad _ (by omega)
    have hne3 : b64Char (b2 % 64) ≠ 61 := b64Char_ne_pad _ (by omega)
    simp [b64encode, b64decode, e0, e1, e2, e3, hne2, hne3, ih hrest]
    omega

theorem cipherFrom_involutive (tok : List Nat) : ∀ (l : List Nat) (i : Nat),
    cipherFrom tok i (cipherFrom tok i l) = l := by
  intro l
  induction l with
  | nil => intro i; rfl
  | cons b rest ih =>
    intro i
    simp only [cipherFrom, ih (i + 1)]
    rw [Nat.xor_assoc, Nat.xor_self, Nat.xor_zero]

theorem cipherFrom_lt (tok : List Nat) : ∀ (l : List Nat) (i : Nat),
    (∀ b ∈ l, b < 256) → ∀ c ∈ cipherFrom tok i l, c < 256 := by
  intro l
  induction l with
  | nil => intro i _ c hc; simp [cipherFrom] at hc
  | cons b rest ih =>
    intro i hb c hc
    simp only [cipherFrom, List.mem_cons] at hc
    rcases hc with hc | hc
    · have hblt : b < 256 := hb b (by simp)
      have hklt : keystreamAt tok i < 256 := Nat.mod_lt _ (by norm_num)
      have : b ^^^ keystreamAt tok i < 2 ^ 8 :=
        Nat.xor_lt_two_pow (by norm_num [hblt]) (by norm_num [hklt])
      rw [hc]
      simpa using this
    · exact ih (i + 1) (fun x hx => hb x (by simp [hx])) c hc

/-- C9: the API decode inverts the API encode under the same token: for every
serializable value whose serialization is a byte sequence, base64-decoding,
decrypting with the token, and deserializing recover exactly the value that
was serialized, encrypted and base64-encoded.  The serializer pair stands for
`serde_json` with its round-trip contract. -/
theorem c9_api_encode_decode_roundtrip {α : Type} (ser : α → List Nat)
    (deser : List Nat → Option α) (tok : List Nat) (v : α)
    (hser : ∀ x, deser (ser x) = some x) (hb : ∀ b ∈ ser v, b < 256) :
    apiDecode deser tok (apiEncode ser tok v) = .ok v := by
  unfold apiEncode apiDecode
  rw [b64_roundtrip (encrypt tok (ser v)) (cipherFrom_lt tok (ser v) 0 hb)]
  show (match deser (decrypt tok (encrypt tok (ser v))) with
    | none => Except.error (WebSocketError.RequestError "Invalid request")
    | some v2 => Except.ok v2) = Except.ok v
  unfold encrypt decrypt
  rw [cipherFrom_involutive tok (ser v) 0, hser v]

/-- Closed instance of C9: a concrete byte message survives the
encode/decode round trip under a concrete token. -/
theorem c9_api_encode_decode_roundtrip_witness :
    apiDecode (fun l => some l) [3, 5]
      (apiEncode (fun l : List Nat => l) [3, 5] [9, 200, 0, 31]) =
      .ok [9, 200, 0, 31] :=
  c9_api_encode_decode_roundtrip (fun l => l) (fun l => some l) [3, 5]
    [9, 200, 0, 31] (fun _ => rfl) (by decide)

theorem keys_filter_ne (up : List (Nat × Output)) (h : Nat) :
    (up.filter (fun e2 => e2.1 != h)).map Prod.fst =
      (up.map Prod.fst).filter (fun x => x != h) := by
  induction up with
  | nil => rfl
  | cons e rest ih =>
    by_cases he : (e.1 != h) = true
    · simp only [List.filter_cons, he, if_pos trivial, List.map_cons, ih]
    · simp only [Bool.not_eq_true] at he
      simp only [List.filter_cons, he, Bool.false_eq_true, if_false,
        List.map_cons, ih]

theorem find?_key_some (up : List (Nat × Output)) (h : Nat) (e : Nat × Output)
    (hf : up.find? (fun x => x.1 == h) = some e) : e ∈ up ∧ e.1 = h := by
  have h1 := List.mem_of_find?_eq_some hf
  have h2 := List.find?_some hf
  simp only [beq_iff_eq] at h2
  exact ⟨h1, h2⟩

theorem spendInputs_mem (hs : List Nat) :
    ∀ (up up2 : List (Nat × Output)) (os : List Output),
      spendInputs up hs = .ok (os, up2) →
      ∀ x, x ∈ up2.map Prod.fst ↔ x ∈ up.map Prod.fst ∧ x ∉ hs := by
  induction hs with
  | nil =>
    intro up up2 os hok x
    unfold spendInputs at hok
    have hp := Except.ok.inj hok
    have h2 : up = up2 := congrArg Prod.snd hp
    rw [← h2]
    simp
  | cons h rest ih =>
    intro up up2 os hok x
    unfold spendInputs at hok
    cases hfind : up.find? (fun e => e.1 == h) with
    | none => rw [hfind] at hok; simp at hok
    | some e =>
      rw [hfind] at hok
      cases hrec : spendInputs (up.filter (fun e2 => e2.1 != h)) rest with
      | error k => rw [hrec] at hok; simp at hok
      | ok pr =>
        rw [hrec] at hok
        have hp := Except.ok.inj hok
        have hup : pr.2 = up2 := congrArg Prod.snd hp
        rw [← hup, ih _ pr.2 pr.1 (by rw [← hrec]) x, keys_filter_ne,
          List.mem_filter]
        simp only [List.mem_cons, bne_iff_ne, ne_eq, decide_eq_true_eq]
        constructor
        · rintro ⟨⟨hmem, hne⟩, hnr⟩
          exact ⟨hmem, by tauto⟩
        · rintro ⟨hmem, hnot⟩
          refine ⟨⟨hmem, fun hc => hnot (Or.inl hc)⟩, fun hc => hnot (Or.inr hc)⟩

theorem spendInputs_sub (hs : List Nat) :
    ∀ (up up2 : List (Nat × Output)) (os : List Output),
      spendInputs up hs = .ok (os, up2) →
      ∀ x ∈ hs, x ∈ up.map Prod.fst := by
  induction hs with
  | nil => intro up up2 os hok x hx; simp at hx
  | cons h rest ih =>
    intro up up2 os hok x hx
    unfold spendInputs at hok
    cases hfind : up.find? (fun e => e.1 == h) with
    | none => rw [hfind] at hok; simp at hok
    | some e =>
      rw [hfind] at hok
      cases hrec : spendInputs (up.filter (fun e2 => e2.1 != h)) rest with
      | error k => rw [hrec] at hok; simp at hok
      | ok pr =>
        rcases List.mem_cons.mp hx with hx | hx
        · rcases find?_key_some up h e hfind with ⟨hmem, hkey⟩
          rw [hx, ← hkey]
          exact List.mem_map.mpr ⟨e, hmem, rfl⟩
        · have hx2 := ih _ pr.2 pr.1 (by rw [← hrec]) x hx
          rw [keys_filter_ne, List.mem_filter] at hx2
          exact hx2.1

theorem nodup_keys_filter (up : List (Nat × Output)) (h : Nat)
    (hn : (up.map Prod.fst).Nodup) :
    ((up.filter (fun e2 => e2.1 != h)).map Prod.fst).Nodup := by
  rw [keys_filter_ne]
  exact hn.filter _

theorem keys_filter_length (up : List (Nat × Output)) (h : Nat)
    (hn : (up.map Prod.fst).Nodup) (hmem : h ∈ up.map Prod.fst) :
    (up.filter (fun e2 => e2.1 != h)).length + 1 = up.length := by
  induction up with
  | nil => simp at hmem
  | cons e rest ih =>
    simp only [List.map_cons, List.nodup_cons] at hn
    rw [List.map_cons, List.mem_cons] at hmem
    by_cases he : e.1 = h
    · have hrest : rest.filter (fun e2 => e2.1 != h) = rest := by
        apply List.filter_eq_self.mpr
        intro a ha
        simp only [bne_iff_ne, ne_eq, decide_eq_true_eq]
        intro hc
        exact hn.1 (by rw [he, ← hc]; exact List.mem_map.mpr ⟨a, ha, rfl⟩)
      have hehb : (e.1 != h) = false := by simp [he]
      simp [List.filter_cons, hehb, hrest]
    · have hehb : (e.1 != h) = true := by simp [he]
      have hmem2 : h ∈ rest.map Prod.fst := by
        rcases hmem with hc | hc
        · exact absurd hc.symm he
        · exact hc
      simp only [List.filter_cons, hehb, if_pos trivial, List.length_cons]
      rw [← ih hn.2 hmem2]

theorem spendInputs_length (hs : List Nat) :
    ∀ (up up2 : List (Nat × Output)) (os : List Output),
      (up.map Prod.fst).Nodup →
      spendInputs up hs = .ok (os, up2) →
      up2.length + hs.length = up.length := by
  induction hs with
  | nil =>
    intro up up2 os _ hok
    unfold spendInputs at hok
    have hp := Except.ok.inj hok
    have h2 : up = up2 := congrArg Prod.snd hp
    rw [← h2]
    simp
  | cons h rest ih =>
    intro up up2 os hn hok
    unfold spendInputs at hok
    cases hfind : up.find? (fun e => e.1 == h) with
    | none => rw [hfind] at hok; simp at hok
    | some e =>
      rw [hfind] at hok
      cases hrec : spendInputs (up.filter (fun e2 => e2.1 != h)) rest with
      | error k => rw [hrec] at hok; simp at hok
      | ok pr =>
        rw [hrec] at hok
        have hp := Except.ok.inj hok
        have hup : pr.2 = up2 := congrArg Prod.snd hp
        have hlen := ih _ pr.2 pr.1 (nodup_keys_filter up h hn) (by rw [← hrec])
        rcases find?_key_some up h e hfind with ⟨hmem, hkey⟩
        have hhm : h ∈ up.map Prod.fst := by
          rw [← hkey]
          exact List.mem_map.mpr ⟨e, hmem, rfl⟩
        have hfl := keys_filter_length up h hn hhm
        rw [← hup]
        simp only [List.length_cons]
        omega

theorem spendInputs_nodup (hs : List Nat) :
    ∀ (up up2 : List (Nat × Output)) (os : List Output),
      (up.map Prod.fst).Nodup →
      spendInputs up hs = .ok (os, up2) →
      (up2.map Prod.fst).Nodup := by
  induction hs with
  | nil =>
    intro up up2 os hn hok
    unfold spendInputs at hok
    have hp := Except.ok.inj hok
    have h2 : up = up2 := congrArg Prod.snd hp
    rw [← h2]
    exact hn
  | cons h rest ih =>
    intro up up2 os hn hok
    unfold spendInputs at hok
    cases hfind : up.find? (fun e => e.1 == h) with
    | none => rw [hfind] at hok; simp at hok
    | some e =>
      rw [hfind] at hok
      cases hrec : spendInputs (up.filter (fun e2 => e2.1 != h)) rest with
      | error k => rw [hrec] at hok; simp at hok
      | ok pr =>
        rw [hrec] at hok
        have hp := Except.ok.inj hok
        have hup : pr.2 = up2 := congrArg Prod.snd hp
        rw [← hup]
        exact ih _ pr.2 pr.1 (nodup_keys_filter up h hn) (by rw [← hrec])

theorem registerOutputs_facts (outs : List Output) :
    ∀ (up up2 : List (Nat × Output)) (hist hist2 : List Nat),
      registerOutputs up hist outs = .ok (up2, hist2) →
      (∀ x, x ∈ up2.map Prod.fst ↔
        x ∈ up.map Prod.fst ∨ x ∈ outs.map hashOutput) ∧
      (∀ x, x ∈ hist2 ↔ x ∈ hist ∨ x ∈ outs.map hashOutput) ∧
      up2.length = up.length + outs.length ∧
      (∀ x ∈ outs.map hashOutput, x ∉ hist) := by
  induction outs with
  | nil =>
    intro up up2 hist hist2 hok
    unfold registerOutputs at hok
    have hp := Except.ok.inj hok
    have h1 : up = up2 := congrArg Prod.fst hp
    have h2 : hist = hist2 := congrArg Prod.snd hp
    rw [← h1, ← h2]
    simp
  | cons o rest ih =>
    intro up up2 hist hist2 hok
    simp only [registerOutputs] at hok
    by_cases hmem : hashOutput o ∈ hist
    · rw [if_pos hmem] at hok
      simp at hok
    · rw [if_neg hmem] at hok
      obtain ⟨m1, m2, m3, m4⟩ := ih _ _ _ _ hok
      refine ⟨fun x => ?_, fun x => ?_, ?_, ?_⟩
      · rw [m1 x]
        simp only [List.map_cons, List.mem_cons]
        tauto
      · rw [m2 x]
        simp only [List.map_cons, List.mem_cons]
        tauto
      · rw [m3]
        simp only [List.length_cons, List.map_cons]
        omega
      · intro x hx
        simp only [List.map_cons, List.mem_cons] at hx
        rcases hx with rfl | hx
        · exact hmem
        · intro hc
          exact m4 x hx (List.mem_cons_of_mem _ hc)

theorem registerOutputs_wf (outs : List Output) :
    ∀ (up up2 : List (Nat × Output)) (hist hist2 : List Nat),
      registerOutputs up hist outs = .ok (up2, hist2) →
      (∀ x ∈ up.map Prod.fst, x ∈ hist) → (up.map Prod.fst).Nodup →
      (∀ x ∈ up2.map Prod.fst, x ∈ hist2) ∧ (up2.map Prod.fst).Nodup := by
  induction outs with
  | nil =>
    intro up up2 hist hist2 hok hsub hn
    unfold registerOutputs at hok
    have hp := Except.ok.inj hok
    have h1 : up = up2 := congrArg Prod.fst hp
    have h2 : hist = hist2 := congrArg Prod.snd hp
    rw [← h1, ← h2]
    exact ⟨hsub, hn⟩
  | cons o rest ih =>
    intro up up2 hist hist2 hok hsub hn
    simp only [registerOutputs] at hok
    by_cases hmem : hashOutput o ∈ hist
    · rw [if_pos hmem] at hok
      simp at hok
    · rw [if_neg hmem] at hok
      apply ih _ _ _ _ hok
      · intro x hx
        simp only [List.map_cons, List.mem_cons] at hx
        rcases hx with rfl | hx
        · exact List.mem_cons_self _ _
        · exact List.mem_cons_of_mem _ (hsub x hx)
      · simp only [List.map_cons, List.nodup_cons]
        exact ⟨fun hc => hmem (hsub _ hc), hn⟩

theorem validateBlockTxs_facts (txs : List Tx) :
    ∀ (up up2 : List (Nat × Output)) (outs : List Output),
      validateBlockTxs up txs = .ok (up2, outs) →
      outs = txs.flatMap Tx.outputs ∧
      (∀ x, x ∈ up2.map Prod.fst ↔
        x ∈ up.map Prod.fst ∧ x ∉ txs.flatMap Tx.inputHashes) ∧
      (∀ x ∈ txs.flatMap Tx.inputHashes, x ∈ up.map Prod.fst) ∧
      ((up.map Prod.fst).Nodup →
        (up2.map Prod.fst).Nodup ∧
        up2.length + (txs.flatMap Tx.inputHashes).length = up.length) := by
  induction txs with
  | nil =>
    intro up up2 outs hok
    unfold validateBlockTxs at hok
    have hp := Except.ok.inj hok
    have h1 : up = up2 := congrArg Prod.fst hp
    have h2 : ([] : List Output) = outs := congrArg Prod.snd hp
    rw [← h1, ← h2]
    simp
  | cons tx rest ih =>
    intro up up2 outs hok
    cases tx with
    | payment ptx =>
      simp only [validateBlockTxs] at hok
      cases hsp : spendInputs up ptx.txins with
      | error k =>
        rw [hsp] at hok
        simp at hok
      | ok pr =>
        obtain ⟨resolved, upA⟩ := pr
        rw [hsp] at hok
        dsimp only at hok
        cases hval : ptx.validate resolved with
        | error k =>
          rw [hval] at hok
          simp at hok
        | ok u =>
          cases u
          rw [hval] at hok
          dsimp only at hok
          cases hrec : validateBlockTxs upA rest with
          | error k =>
            rw [hrec] at hok
            simp at hok
          | ok pr2 =>
            obtain ⟨upB, outsB⟩ := pr2
            rw [hrec] at hok
            dsimp only at hok
            have hp := Except.ok.inj hok
            have hu : upB = up2 := congrArg Prod.fst hp
            have ho : ptx.txouts ++ outsB = outs := congrArg Prod.snd hp
            obtain ⟨i1, i2, i3, i4⟩ := ih upA upB outsB hrec
            have sm := spendInputs_mem ptx.txins up upA resolved hsp
            have ss := spendInputs_sub ptx.txins up upA resolved hsp
            refine ⟨?_, fun x => ?_, fun x hx => ?_, fun hn => ?_⟩
            · rw [← ho, i1]
              simp [Tx.outputs]
            · rw [← hu]
              rw [i2 x, sm x]
              simp only [List.flatMap_cons, Tx.inputHashes, List.mem_append]
              tauto
            · simp only [List.flatMap_cons, Tx.inputHashes,
                List.mem_append] at hx
              rcases hx with hx | hx
              · exact ss x hx
              · exact ((sm x).mp (i3 x hx)).1
            · have hnA := spendInputs_nodup ptx.txins up upA resolved hn hsp
              have hlA := spendInputs_length ptx.txins up upA resolved hn hsp
              obtain ⟨hnB, hlB⟩ := i4 hnA
              constructor
              · rw [← hu]
                exact hnB
              · rw [← hu]
                simp only [List.flatMap_cons, Tx.inputHashes,
                  List.length_append]
                omega
    | coinbase ctx =>
      simp only [validateBlockTxs] at hok
      cases hval : ctx.validate with
      | error k =>
        rw [hval] at hok
        simp at hok
      | ok u =>
        cases u
        rw [hval] at hok
        dsimp only at hok
        cases hrec : validateBlockTxs up rest with
        | error k =>
          rw [hrec] at hok
          simp at hok
        | ok pr2 =>
          obtain ⟨upB, outsB⟩ := pr2
          rw [hrec] at hok
          dsimp only at hok
          have hp := Except.ok.inj hok
          have hu : upB = up2 := congrArg Prod.fst hp
          have ho : ctx.txouts ++ outsB = outs := congrArg Prod.snd hp
          obtain ⟨i1, i2, i3, i4⟩ := ih up upB outsB hrec
          refine ⟨?_, fun x => ?_, fun x hx => ?_, fun hn => ?_⟩
          · rw [← ho, i1]
            simp [Tx.outputs]
          · rw [← hu, i2 x]
            simp [Tx.inputHashes]
          · simp only [List.flatMap_cons, Tx.inputHashes, List.nil_append] at hx
            exact i3 x hx
          · obtain ⟨hnB, hlB⟩ := i4 hn
            constructor
            · rw [← hu]
              exact hnB
            · rw [← hu]
              simp only [List.flatMap_cons, Tx.inputHashes, List.nil_append]
              omega

theorem applyTransactions_facts (up upf : List (Nat × Output))
    (hist histf : List Nat) (txs : List Tx)
    (hok : applyTransactions up hist txs = .ok (upf, histf)) :
    (∀ x, x ∈ upf.map Prod.fst ↔
      (x ∈ up.map Prod.fst ∧ x ∉ txs.flatMap Tx.inputHashes) ∨
      x ∈ (txs.flatMap Tx.outputs).map hashOutput) ∧
    (∀ x, x ∈ histf ↔ x ∈ hist ∨ x ∈ (txs.flatMap Tx.outputs).map hashOutput) ∧
    (∀ x ∈ (txs.flatMap Tx.outputs).map hashOutput, x ∉ hist) ∧
    (∀ x ∈ txs.flatMap Tx.inputHashes, x ∈ up.map Prod.fst) ∧
    ((up.map Prod.fst).Nodup →
      upf.length + (txs.flatMap Tx.inputHashes).length =
        up.length + (txs.flatMap Tx.outputs).length) := by
  unfold applyTransactions at hok
  cases hv : validateBlockTxs up txs with
  | error k =>
    rw [hv] at hok
    simp at hok
  | ok pr =>
    obtain ⟨upB, outsB⟩ := pr
    rw [hv] at hok
    dsimp only at hok
    obtain ⟨v1, v2, v3, v4⟩ := validateBlockTxs_facts txs up upB outsB hv
    subst v1
    obtain ⟨r1, r2, r3, r4⟩ := registerOutputs_facts _ upB upf hist histf hok
    refine ⟨fun x => ?_, r2, r4, v3, fun hn => ?_⟩
    · rw [r1 x, v2 x]
    · obtain ⟨hnB, hlB⟩ := v4 hn
      rw [r3]
      omega

theorem applyTransactions_wf (up upf : List (Nat × Output))
    (hist histf : List Nat) (txs : List Tx)
    (hok : applyTransactions up hist txs = .ok (upf, histf))
    (hsub : ∀ x ∈ up.map Prod.fst, x ∈ hist)
    (hn : (up.map Prod.fst).Nodup) :
    (∀ x ∈ upf.map Prod.fst, x ∈ histf) ∧ (upf.map Prod.fst).Nodup := by
  unfold applyTransactions at hok
  cases hv : validateBlockTxs up txs with
  | error k =>
    rw [hv] at hok
    simp at hok
  | ok pr =>
    obtain ⟨upB, outsB⟩ := pr
    rw [hv] at hok
    dsimp only at hok
    obtain ⟨v1, v2, v3, v4⟩ := validateBlockTxs_facts txs up upB outsB hv
    obtain ⟨hnB, -⟩ := v4 hn
    apply registerOutputs_wf outsB upB upf hist histf hok ?_ hnB
    intro x hx
    exact hsub x ((v2 x).mp hx).1

theorem validateAndApplyMicro_ok_elim (L : Ledger) (b : MicroBlock)
    (L2 : Ledger) (hok : validateAndApplyMicro L b = .ok L2) :
    ∃ d, validateMicro L b = .ok d ∧ L2 = applyMicroData L b d := by
  unfold validateAndApplyMicro at hok
  cases hv : validateMicro L b with
  | error k =>
    rw [hv] at hok
    exact Except.noConfusion hok
  | ok d =>
    rw [hv] at hok
    have hok2 : applyMicroData L b d = L2 := Except.ok.inj hok
    exact ⟨d, rfl, hok2.symm⟩

theorem validateMicro_ok_elim (L : Ledger) (b : MicroBlock)
    (d : List (Nat × Output) × List Nat) (h : validateMicro L b = .ok d) :
    b.previous = L.lastBlockHash ∧
    applyTransactions L.unspent L.history b.transactions = .ok d := by
  unfold validateMicro at h
  split_ifs at h with h1 h2 h3 h4 h5
  exact ⟨not_not.mp h1, h⟩

theorem hashMicroBlock_ne (b : MicroBlock) :
    hashMicroBlock b ≠ b.previous := by
  unfold hashMicroBlock
  omega

theorem ledger_pred_step (L L2 : Ledger) (b : MicroBlock) (x : Nat)
    (hx : x ∈ L.history ∧ x ∉ unspentKeys L)
    (hok : validateAndApplyMicro L b = .ok L2) :
    x ∈ L2.history ∧ x ∉ unspentKeys L2 := by
  obtain ⟨d, hv, rfl⟩ := validateAndApplyMicro_ok_elim L b L2 hok
  obtain ⟨-, happ⟩ := validateMicro_ok_elim L b d hv
  obtain ⟨upf, histf⟩ := d
  obtain ⟨a1, a2, a3, a4, a5⟩ :=
    applyTransactions_facts L.unspent upf L.history histf b.transactions happ
  constructor
  · exact (a2 x).mpr (Or.inl hx.1)
  · intro hc
    rcases (a1 x).mp hc with ⟨hcc, -⟩ | hcc
    · exact hx.2 hcc
    · exact a3 x hcc hx.1

theorem ledger_pred_reach (L2 L3 : Ledger) (x : Nat)
    (hr : ReachableLedger L2 L3)
    (hx : x ∈ L2.history ∧ x ∉ unspentKeys L2) :
    x ∈ L3.history ∧ x ∉ unspentKeys L3 := by
  induction hr with
  | refl => exact hx
  | step Lb Lc b hr2 hokk ih => exact ledger_pred_step Lb Lc b x ih hokk

/-- C3: validate_and_apply_micro is atomic on failure.  The call is, by
construction, validation followed by a mutation that operates only on the
validated data and cannot fail; every successful call factors through a
complete validation; and on every failure the call returns an error kind and
the observed ledger state equals the previous state in every field. -/
theorem c3_micro_atomic_on_failure (L : Ledger) (b : MicroBlock) :
    (validateAndApplyMicro L b = (validateMicro L b).map (applyMicroData L b)) ∧
    (∀ L2, validateAndApplyMicro L b = .ok L2 →
      ∃ d, validateMicro L b = .ok d ∧ L2 = applyMicroData L b d) ∧
    (∀ e, validateAndApplyMicro L b = .error e →
      ledgerAfterMicro L b = L ∧
      (ledgerAfterMicro L b).unspent = L.unspent ∧
      (ledgerAfterMicro L b).epoch = L.epoch ∧
      (ledgerAfterMicro L b).offset = L.offset ∧
      (ledgerAfterMicro L b).viewChange = L.viewChange ∧
      (ledgerAfterMicro L b).lastBlockHash = L.lastBlockHash ∧
      (ledgerAfterMicro L b).lastRandom = L.lastRandom ∧
      (ledgerAfterMicro L b).validators = L.validators ∧
      (ledgerAfterMicro L b).history = L.history) := by
  refine ⟨rfl, fun L2 hok => validateAndApplyMicro_ok_elim L b L2 hok,
    fun e he => ?_⟩
  unfold ledgerAfterMicro
  rw [he]
  exact ⟨rfl, rfl, rfl, rfl, rfl, rfl, rfl, rfl, rfl⟩

/-- Closed instance of C3: a block whose previous hash does not match the tip
is rejected with `ChainLinkageMismatch` and the observed ledger state is the
previous state. -/
theorem c3_micro_atomic_on_failure_witness :
    ledgerAfterMicro exLedger exBadBlock = exLedger :=
  ((c3_micro_atomic_on_failure exLedger exBadBlock).2.2 .ChainLinkageMismatch
    (by decide)).1

/-- C7: the ledger never double-applies and never resurrects a spent output.
After a successful application of a block, applying the same block again is
rejected with `ChainLinkageMismatch`, and every input hash consumed by the
block is absent from the unspent set of every state reachable through further
successful applications. -/
theorem c7_no_double_apply_no_respend (L : Ledger) (b : MicroBlock)
    (L2 : Ledger) (hWF : LedgerWF L)
    (hok : validateAndApplyMicro L b = .ok L2) :
    validateAndApplyMicro L2 b = .error .ChainLinkageMismatch ∧
    (∀ h, h ∈ blockInputHashes b →
      ∀ L3, ReachableLedger L2 L3 → h ∉ unspentKeys L3) := by
  obtain ⟨d, hv, rfl⟩ := validateAndApplyMicro_ok_elim L b L2 hok
  obtain ⟨hprev, happ⟩ := validateMicro_ok_elim L b d hv
  constructor
  · unfold validateAndApplyMicro validateMicro
    rw [show (applyMicroData L b d).lastBlockHash = hashMicroBlock b from rfl]
    rw [if_pos (Ne.symm (hashMicroBlock_ne b))]
    rfl
  · intro h hh L3 hreach
    obtain ⟨upf, histf⟩ := d
    obtain ⟨a1, a2, a3, a4, a5⟩ :=
      applyTransactions_facts L.unspent upf L.history histf b.transactions happ
    have hkey : h ∈ L.unspent.map Prod.fst := a4 h hh
    have hhist : h ∈ L.history := hWF.1 h hkey
    have hpred : h ∈ histf ∧ h ∉ upf.map Prod.fst := by
      constructor
      · exact (a2 h).mpr (Or.inl hhist)
      · intro hc
        rcases (a1 h).mp hc with ⟨-, hcc⟩ | hcc
        · exact hcc hh
        · exact a3 h hcc hhist
    exact (ledger_pred_reach _ L3 h hreach hpred).2

/-- Closed instance of C7: after applying the witness block, applying it
again is rejected with `ChainLinkageMismatch`, and the spent output hash is
no longer in the unspent set. -/
theorem c7_no_double_apply_no_respend_witness :
    validateAndApplyMicro exLedgerAfter exBlock =
      .error .ChainLinkageMismatch ∧
    hashOutput exSpentOutput ∉ unspentKeys exLedgerAfter :=
  ⟨(c7_no_double_apply_no_respend exLedger exBlock exLedgerAfter (by decide)
      (by decide)).1,
   (c7_no_double_apply_no_respend exLedger exBlock exLedgerAfter (by decide)
      (by decide)).2 (hashOutput exSpentOutput) (by decide) exLedgerAfter
      (ReachableLedger.refl exLedgerAfter)⟩

/-- Counterexample to C8 as stated: a successful micro-block application on
which the last block hash (and the last random value) do change, so offset,
view-change and the output set are not the only Ledger fields that change. -/
theorem c8_last_hash_changes :
    validateAndApplyMicro exLedger exBlock = .ok exLedgerAfter ∧
    exLedgerAfter.lastBlockHash ≠ exLedger.lastBlockHash ∧
    exLedgerAfter.lastRandom ≠ exLedger.lastRandom := by
  refine ⟨by decide, by decide, by decide⟩

/-- C8 (amended): a successful validate_and_apply_micro removes exactly the
block's spent output hashes from the unspent set and inserts exactly its new
output hashes, the unspent count changes by outputs minus inputs, the offset
is incremented, the view-change counter resets to zero, the epoch and the
validator registry are unchanged, and the last block hash and last random
value move to the applied block's hash and random value. -/
theorem c8_micro_apply_frame (L : Ledger) (b : MicroBlock) (L2 : Ledger)
    (hWF : LedgerWF L) (hok : validateAndApplyMicro L b = .ok L2) :
    (∀ h, h ∈ unspentKeys L2 ↔
      (h ∈ unspentKeys L ∧ h ∉ blockInputHashes b) ∨
      h ∈ blockOutputHashes b) ∧
    (L2.unspent.length + (blockInputHashes b).length =
      L.unspent.length + (blockOutputHashes b).length) ∧
    L2.offset = L.offset + 1 ∧
    L2.viewChange = 0 ∧
    L2.epoch = L.epoch ∧
    L2.validators = L.validators ∧
    L2.lastBlockHash = hashMicroBlock b ∧
    L2.lastRandom = b.random := by
  obtain ⟨d, hv, rfl⟩ := validateAndApplyMicro_ok_elim L b L2 hok
  obtain ⟨hprev, happ⟩ := validateMicro_ok_elim L b d hv
  obtain ⟨upf, histf⟩ := d
  obtain ⟨a1, a2, a3, a4, a5⟩ :=
    applyTransactions_facts L.unspent upf L.history histf b.transactions happ
  refine ⟨a1, ?_, rfl, rfl, rfl, rfl, rfl, rfl⟩
  have hlen := a5 hWF.2
  unfold blockInputHashes blockOutputHashes
  simp only [applyMicroData, List.length_map] at hlen ⊢
  omega

/-- Closed instance of the amended C8 on the witness scenario: the offset
advances, the view-change counter resets, the epoch and validators are
unchanged, and the unspent count is preserved (one spent, one created). -/
theorem c8_micro_apply_frame_witness :
    exLedgerAfter.offset = exLedger.offset + 1 ∧
    exLedgerAfter.viewChange = 0 ∧
    exLedgerAfter.epoch = exLedger.epoch ∧
    exLedgerAfter.validators = exLedger.validators ∧
    exLedgerAfter.unspent.length + (blockInputHashes exBlock).length =
      exLedger.unspent.length + (blockOutputHashes exBlock).length := by
  have hc := c8_micro_apply_frame exLedger exBlock exLedgerAfter (by decide)
    (by decide)
  exact ⟨hc.2.2.1, hc.2.2.2.1, hc.2.2.2.2.1, hc.2.2.2.2.2.1, hc.2.1⟩
